import Mathlib

/-!
Verification of the dealkitty-android deal pipeline.

Shallow embedding of the TypeScript sources:
* `src/utils/deals.ts` — deal classification, scoring and quality gating;
* `src/services/cheapshark.ts` — store-key normalization and deal mapping;
* the deals screen — game-identity keys, merge-by-game and ranking.

JavaScript numbers are modelled as rationals (`ℚ`).  `Math.log10` is
transcendental, so every definition that needs it is parametrised by a
function `log10 : ℚ → ℚ`; the theorems hold for every such function.
`Math.round` on the non-negative ranges used here is `⌊x + 1/2⌋`.
Optional (possibly-`undefined`) fields are `Option`s, and JavaScript
objects used as string-keyed records are association lists in insertion
order, with `set` overwriting in place exactly as `Map.set` / property
assignment do.
-/

/-- The deal record from `src/utils/deals.ts` (`type Deal`).  Optional
fields are `Option`s; `claimLinks` is a string-keyed record in insertion
order. -/
structure Deal where
  title : String
  image : String
  listPrice : ℚ
  currentPrice : ℚ
  platforms : List String
  dealId : Option String := none
  gameId : Option String := none
  steamAppId : Option String := none
  claimLinks : Option (List (String × String)) := none
  steamRatingPercent : Option ℚ := none
  steamRatingCount : Option ℚ := none
  metacriticScore : Option ℚ := none
  dealRating : Option ℚ := none
deriving DecidableEq

/-- Result type of `classifyDeal`: `'free' | 'insane' | 'sale'`. -/
inductive Verdict where
  | free
  | insane
  | sale
deriving DecidableEq

/-- Result type of `qualityTier`: `'great' | 'good' | 'unknown'`. -/
inductive QTier where
  | great
  | good
  | unknown
deriving DecidableEq

/-- `Math.round` for the (non-negative) arguments used by the app:
round half away from zero, i.e. `⌊x + 1/2⌋` on `x ≥ 0`. -/
def jsRound (q : ℚ) : ℤ := ⌊q + 1 / 2⌋

/-- `classifyDeal` from `src/utils/deals.ts`.  The final
`discountPercent >= 15` test is kept exactly as in the source, where both
of its branches return `'sale'`. -/
def classifyDeal (log10 : ℚ → ℚ) (listPrice currentPrice : ℚ) : Verdict :=
  if currentPrice ≤ 1 / 100 then .free
  else if listPrice ≤ 0 then .sale
  else
    let discountFraction := max 0 (min 1 ((listPrice - currentPrice) / listPrice))
    let score := discountFraction * log10 (listPrice + 1)
    if discountFraction ≥ 2 / 5 ∧ score ≥ 1 then .insane
    else
      let discountPercent := jsRound (discountFraction * 100)
      if discountPercent ≥ 15 then .sale else .sale

/-- Result record of `computeDealScore`. -/
structure DealScore where
  discountFraction : ℚ
  score : ℚ
  discountPercent : ℤ
  savings : ℚ
deriving DecidableEq

/-- `computeDealScore` from `src/utils/deals.ts`. -/
def computeDealScore (log10 : ℚ → ℚ) (listPrice currentPrice : ℚ) : DealScore :=
  if listPrice ≤ 0 then
    { discountFraction := 0, score := 0, discountPercent := 0, savings := 0 }
  else
    let savings := max 0 (listPrice - currentPrice)
    let discountFraction := max 0 (min 1 (savings / listPrice))
    let score := discountFraction * log10 (listPrice + 1)
    let discountPercent := jsRound (discountFraction * 100)
    { discountFraction := discountFraction, score := score,
      discountPercent := discountPercent, savings := savings }

/-- `qualityTier` from `src/utils/deals.ts`. -/
def qualityTier (d : Deal) : QTier :=
  let srp := d.steamRatingPercent.getD 0
  let src := d.steamRatingCount.getD 0
  let meta := d.metacriticScore.getD 0
  if (srp ≥ 90 ∧ src ≥ 1000) ∨ meta ≥ 85 then .great
  else if (srp ≥ 80 ∧ src ≥ 200) ∨ meta ≥ 75 then .good
  else .unknown

/-- `classifyDealWithQuality` from `src/utils/deals.ts`. -/
def classifyDealWithQuality (log10 : ℚ → ℚ) (d : Deal) : Verdict :=
  let base := classifyDeal log10 d.listPrice d.currentPrice
  if base ≠ .insane then base
  else if qualityTier d = .great ∨ qualityTier d = .good then .insane
  else .sale

/-- Claim C1: `classifyDeal` returns `free` iff `currentPrice ≤ 0.01`
(with priority over everything else); otherwise, when `listPrice ≤ 0` it
returns `sale`; otherwise it returns `insane` iff the clamped discount
fraction is at least `0.40` and the score `D * log10(listPrice + 1)` is at
least `1.0`; and in every remaining case — including discounts below 15%,
the internal 15% branch having no observable effect — it returns `sale`. -/
theorem classifyDeal_characterization (log10 : ℚ → ℚ) (lp cp : ℚ) :
    (classifyDeal log10 lp cp = .free ↔ cp ≤ 1 / 100) ∧
    (¬ cp ≤ 1 / 100 → lp ≤ 0 → classifyDeal log10 lp cp = .sale) ∧
    (¬ cp ≤ 1 / 100 → 0 < lp →
      (classifyDeal log10 lp cp = .insane ↔
        max 0 (min 1 ((lp - cp) / lp)) ≥ 2 / 5 ∧
          max 0 (min 1 ((lp - cp) / lp)) * log10 (lp + 1) ≥ 1) ∧
      (¬ (max 0 (min 1 ((lp - cp) / lp)) ≥ 2 / 5 ∧
            max 0 (min 1 ((lp - cp) / lp)) * log10 (lp + 1) ≥ 1) →
        classifyDeal log10 lp cp = .sale)) := by
  by_cases h1 : cp ≤ 1 / 100
  · have e : classifyDeal log10 lp cp = .free := by
      simp only [classifyDeal]; rw [if_pos h1]
    exact ⟨by rw [e]; exact iff_of_true rfl h1,
      fun hc _ => absurd h1 hc, fun hc _ => absurd h1 hc⟩
  · by_cases h2 : lp ≤ 0
    · have e : classifyDeal log10 lp cp = .sale := by
        simp only [classifyDeal]; rw [if_neg h1, if_pos h2]
      exact ⟨by rw [e]; exact iff_of_false (by decide) h1,
        fun _ _ => e, fun _ hlp => absurd h2 (not_le.mpr hlp)⟩
    · by_cases h3 : max 0 (min 1 ((lp - cp) / lp)) ≥ 2 / 5 ∧
          max 0 (min 1 ((lp - cp) / lp)) * log10 (lp + 1) ≥ 1
      · have e : classifyDeal log10 lp cp = .insane := by
          simp only [classifyDeal]; rw [if_neg h1, if_neg h2, if_pos h3]
        exact ⟨by rw [e]; exact iff_of_false (by decide) h1,
          fun _ hl0 => absurd hl0 h2,
          fun _ _ => ⟨by rw [e]; exact iff_of_true rfl h3, fun hn => absurd h3 hn⟩⟩
      · have e : classifyDeal log10 lp cp = .sale := by
          simp only [classifyDeal]; rw [if_neg h1, if_neg h2, if_neg h3]
          exact ite_self _
        exact ⟨by rw [e]; exact iff_of_false (by decide) h1,
          fun _ _ => e,
          fun _ _ => ⟨by rw [e]; exact iff_of_false (by decide) h3, fun _ => e⟩⟩

/-- Claim C2: `computeDealScore` returns all zeros when `listPrice ≤ 0`;
for `listPrice > 0` (including `currentPrice > listPrice`, which the math
clamps) it returns `savings = max 0 (listPrice - currentPrice)`,
`discountFraction = clamp(savings / listPrice, 0, 1)`,
`score = discountFraction * log10(listPrice + 1)` and
`discountPercent = round(discountFraction * 100)`; and `discountFraction`
always lies in `[0, 1]`. -/
theorem computeDealScore_characterization (log10 : ℚ → ℚ) (lp cp : ℚ) :
    (lp ≤ 0 → computeDealScore log10 lp cp =
      { discountFraction := 0, score := 0, discountPercent := 0, savings := 0 }) ∧
    (0 < lp →
      (computeDealScore log10 lp cp).savings = max 0 (lp - cp) ∧
      (computeDealScore log10 lp cp).discountFraction =
        max 0 (min 1 (max 0 (lp - cp) / lp)) ∧
      (computeDealScore log10 lp cp).score =
        (computeDealScore log10 lp cp).discountFraction * log10 (lp + 1) ∧
      (computeDealScore log10 lp cp).discountPercent =
        jsRound ((computeDealScore log10 lp cp).discountFraction * 100)) ∧
    0 ≤ (computeDealScore log10 lp cp).discountFraction ∧
    (computeDealScore log10 lp cp).discountFraction ≤ 1 := by
  by_cases h : lp ≤ 0
  · have e : computeDealScore log10 lp cp =
        { discountFraction := 0, score := 0, discountPercent := 0, savings := 0 } := by
      simp only [computeDealScore]; rw [if_pos h]
    exact ⟨fun _ => e, fun hlp => absurd h (not_le.mpr hlp),
      by rw [e], by rw [e]; norm_num⟩
  · have e : computeDealScore log10 lp cp =
        { discountFraction := max 0 (min 1 (max 0 (lp - cp) / lp)),
          score := max 0 (min 1 (max 0 (lp - cp) / lp)) * log10 (lp + 1),
          discountPercent := jsRound (max 0 (min 1 (max 0 (lp - cp) / lp)) * 100),
          savings := max 0 (lp - cp) } := by
      simp only [computeDealScore]; rw [if_neg h]
    refine ⟨fun hc => absurd hc h, fun _ => ⟨by rw [e], by rw [e], by rw [e], by rw [e]⟩,
      ?_, ?_⟩
    · rw [e]; exact le_max_left _ _
    · rw [e]; exact max_le (by norm_num) (min_le_left _ _)

/-- Claim C3: `classifyDealWithQuality` agrees with `classifyDeal` except
that an `insane` verdict is downgraded to `sale` unless `qualityTier` is
`good` or `great`; in particular it never returns `insane` when
`qualityTier` is `unknown`. -/
theorem classifyDealWithQuality_characterization (log10 : ℚ → ℚ) (d : Deal) :
    (classifyDealWithQuality log10 d =
      if classifyDeal log10 d.listPrice d.currentPrice = .insane ∧
          ¬ (qualityTier d = .good ∨ qualityTier d = .great)
        then .sale
        else classifyDeal log10 d.listPrice d.currentPrice) ∧
    (qualityTier d = .unknown → classifyDealWithQuality log10 d ≠ .insane) := by
  constructor
  · unfold classifyDealWithQuality
    rcases hb : classifyDeal log10 d.listPrice d.currentPrice with _ | _ | _ <;>
      rcases hq : qualityTier d with _ | _ | _ <;> simp [hb, hq]
  · intro hq
    unfold classifyDealWithQuality
    rcases hb : classifyDeal log10 d.listPrice d.currentPrice with _ | _ | _ <;>
      simp [hb, hq]

/-! ## Game identity keys (deals screen) -/

/-- JavaScript truthiness of an optional string: `undefined` and `''` are
falsy, every other string is truthy. -/
def jsTruthyStr : Option String → Bool
  | none => false
  | some s => !s.isEmpty

/-- The whitespace class of JavaScript's `\s` (and `trim`). -/
def isJsSpace (c : Char) : Bool :=
  c == ' ' || c == '\t' || c == '\n' || c == '\r' || c == '\x0b' || c == '\x0c' ||
  c == ' ' || c == ' ' ||
  (decide (0x2000 ≤ c.val) && decide (c.val ≤ 0x200A)) ||
  c == ' ' || c == ' ' || c == ' ' || c == ' ' ||
  c == '　' || c == '﻿'

/-- State machine for `replace(/\s+/g, ' ')`: each maximal whitespace run
becomes a single space.  `prevWs` records whether the previous character
was part of a run already replaced. -/
def collapseWsAux (prevWs : Bool) : List Char → List Char
  | [] => []
  | c :: rest =>
    if isJsSpace c then
      if prevWs then collapseWsAux true rest
      else ' ' :: collapseWsAux true rest
    else c :: collapseWsAux false rest

/-- `replace(/\s+/g, ' ')` on a character list. -/
def jsCollapseWs (l : List Char) : List Char := collapseWsAux false l

/-- `String.prototype.trim`: drop leading and trailing whitespace. -/
def jsTrimChars (l : List Char) : List Char :=
  ((l.dropWhile isJsSpace).reverse.dropWhile isJsSpace).reverse

/-- `toLowerCase`, modelled as the character-wise lowercase mapping. -/
def jsToLower (s : String) : String := String.mk (s.data.map Char.toLower)

/-- `replace(/[®™]/g, '')`: drop trademark glyphs. -/
def stripTrademarkGlyphs (l : List Char) : List Char :=
  l.filter (fun c => !(c == '®' || c == '™'))

/-- `gameKey` from the deals screen (merge identity): `steamAppId` if
truthy, else `gameId` if truthy, else the normalized title. -/
def gameKey (d : Deal) : String :=
  if jsTruthyStr d.steamAppId then "steamapp:" ++ d.steamAppId.getD ""
  else if jsTruthyStr d.gameId then "cheapshark:" ++ d.gameId.getD ""
  else "title:" ++
    String.mk (jsTrimChars (jsCollapseWs (stripTrademarkGlyphs (jsToLower d.title).data)))

/-- The `FlatList` `keyExtractor` from the deals screen (render identity),
embedded separately from `gameKey` because the source spells the logic out
a second time. -/
def keyExtractor (item : Deal) : String :=
  if jsTruthyStr item.steamAppId then "steamapp:" ++ item.steamAppId.getD ""
  else if jsTruthyStr item.gameId then "cheapshark:" ++ item.gameId.getD ""
  else "title:" ++
    String.mk (jsTrimChars (jsCollapseWs (stripTrademarkGlyphs (jsToLower item.title).data)))

/-- Claim C9: the merge engine's grouping key and the list-rendering key
are extensionally equal: for every deal both prefer `steamAppId`, then
`gameId`, then the normalized title, so merge identity and render identity
always coincide. -/
theorem gameKey_eq_keyExtractor (d : Deal) : gameKey d = keyExtractor d := rfl

/-! ## Merging deals by game (deals screen, `mergeDealsByGame`) -/

/-- `Array.from(new Set(xs))`: keep the first occurrence of each element,
in insertion order.  `seen` is the set built so far. -/
def dedupAcc (seen : List String) : List String → List String
  | [] => []
  | x :: xs => if x ∈ seen then dedupAcc seen xs else x :: dedupAcc (x :: seen) xs

/-- `Array.from(new Set(xs))` with an empty starting set. -/
def dedupFirst (l : List String) : List String := dedupAcc [] l

/-- Property assignment `obj[k] = v` on a string-keyed record: overwrite
in place when the key exists, else append. -/
def objSet (m : List (String × String)) (k v : String) : List (String × String) :=
  if m.any (fun p => decide (p.1 = k)) then
    m.map (fun p => if p.1 = k then (k, v) else p)
  else m ++ [(k, v)]

/-- Object spread `{ ...a, ...b }`: `b`'s entries overwrite or extend `a`. -/
def jsSpread (a b : List (String × String)) : List (String × String) :=
  b.foldl (fun m p => objSet m p.1 p.2) a

/-- `Math.max(e ?? 0, d ?? 0) || b`: the quality-signal combination used by
`mergeDealsByGame` — the max of the two values (undefined as 0), falling
back to `b` when that max is zero (falsy). -/
def qualCombine (e d b : Option ℚ) : Option ℚ :=
  let m := max (e.getD 0) (d.getD 0)
  if m = 0 then b else some m

/-- First insertion of a deal into the merge map:
`{ ...d, platforms: Array.from(new Set(d.platforms)), claimLinks: d.claimLinks ? {...d.claimLinks} : undefined }`.
The claim-links shallow copy is value-equal to the original record. -/
def setIns (d : Deal) : Deal := { d with platforms := dedupFirst d.platforms }

/-- Merging a further deal `d` of the same game into the map entry
`existing`, exactly as the `else` branch of `mergeDealsByGame`'s loop. -/
def mergeInto (existing d : Deal) : Deal :=
  let combinedPlatforms := dedupFirst (existing.platforms ++ d.platforms)
  let combinedLinks := jsSpread (existing.claimLinks.getD []) (d.claimLinks.getD [])
  let best := if d.currentPrice < existing.currentPrice then d else existing
  { best with
    platforms := combinedPlatforms
    claimLinks := if combinedLinks.isEmpty then none else some combinedLinks
    steamRatingPercent :=
      qualCombine existing.steamRatingPercent d.steamRatingPercent best.steamRatingPercent
    steamRatingCount :=
      qualCombine existing.steamRatingCount d.steamRatingCount best.steamRatingCount
    dealRating := qualCombine existing.dealRating d.dealRating best.dealRating }

/-- `map.get(key)` on the insertion-ordered map. -/
def lookupA (m : List (String × Deal)) (k : String) : Option Deal :=
  (m.find? (fun p => decide (p.1 = k))).map Prod.snd

/-- `map.set(key, v)`: overwrite in place when the key exists (keeping its
insertion position), else append. -/
def mapSet (m : List (String × Deal)) (k : String) (v : Deal) : List (String × Deal) :=
  if m.any (fun p => decide (p.1 = k)) then
    m.map (fun p => if p.1 = k then (k, v) else p)
  else m ++ [(k, v)]

/-- One iteration of `mergeDealsByGame`'s loop body. -/
def step (m : List (String × Deal)) (d : Deal) : List (String × Deal) :=
  match lookupA m (gameKey d) with
  | none => mapSet m (gameKey d) (setIns d)
  | some existing => mapSet m (gameKey d) (mergeInto existing d)

/-- `mergeDealsByGame` from the deals screen: fold the list into the
insertion-ordered map, then `Array.from(map.values())`. -/
def mergeDealsByGame (l : List Deal) : List Deal :=
  (l.foldl step []).map Prod.snd

/-- The constituents of `l` whose identity key is `k` (the merge group). -/
def groupOf (l : List Deal) (k : String) : List Deal :=
  l.filter (fun d => decide (gameKey d = k))

/-- The "better price" choice of `mergeDealsByGame`'s loop: the lower
`currentPrice` wins, ties keep the earlier record. -/
def priceFold (x d : Deal) : Deal := if d.currentPrice < x.currentPrice then d else x

/-- The base record of a group: fold `priceFold` over the group. -/
def priceBase (d₀ : Deal) (rest : List Deal) : Deal := rest.foldl priceFold d₀

/-- A throwaway record for the unreachable empty-group case. -/
def dummyDeal : Deal :=
  { title := "", image := "", listPrice := 0, currentPrice := 0, platforms := [] }

/-- The base record of a nonempty group (never used on `[]`). -/
def pb : List Deal → Deal
  | [] => dummyDeal
  | d₀ :: rest => priceBase d₀ rest

/-- What a whole merge group collapses to: the first constituent is
inserted with `setIns`, the rest are folded in with `mergeInto`. -/
def mergeGroup : List Deal → Deal
  | [] => dummyDeal
  | d₀ :: rest => rest.foldl mergeInto (setIns d₀)

/-! ### Set / map bookkeeping lemmas -/

theorem mem_dedupAcc : ∀ (l seen : List String) (x : String),
    x ∈ dedupAcc seen l ↔ x ∈ l ∧ x ∉ seen := by
  intro l
  induction l with
  | nil => intro seen x; simp [dedupAcc]
  | cons y ys ih =>
    intro seen x
    by_cases hy : y ∈ seen
    · rw [dedupAcc, if_pos hy]
      constructor
      · intro h; rw [ih] at h; exact ⟨List.mem_cons_of_mem _ h.1, h.2⟩
      · rintro ⟨h1, h2⟩
        rcases List.mem_cons.mp h1 with rfl | h1
        · exact absurd hy h2
        · exact (ih seen x).mpr ⟨h1, h2⟩
    · rw [dedupAcc, if_neg hy]
      constructor
      · intro h
        rcases List.mem_cons.mp h with rfl | h
        · exact ⟨List.mem_cons_self _ _, hy⟩
        · have := (ih (y :: seen) x).mp h
          exact ⟨List.mem_cons_of_mem _ this.1,
            fun hs => this.2 (List.mem_cons_of_mem _ hs)⟩
      · rintro ⟨h1, h2⟩
        rcases List.mem_cons.mp h1 with rfl | h1
        · exact List.mem_cons_self _ _
        · by_cases hxy : x = y
          · subst hxy; exact List.mem_cons_self _ _
          · exact List.mem_cons_of_mem _ ((ih (y :: seen) x).mpr
              ⟨h1, fun hs => (List.mem_cons.mp hs).elim hxy h2⟩)

theorem nodup_dedupAcc : ∀ (l seen : List String), (dedupAcc seen l).Nodup := by
  intro l
  induction l with
  | nil => intro seen; simp [dedupAcc]
  | cons y ys ih =>
    intro seen
    by_cases hy : y ∈ seen
    · rw [dedupAcc, if_pos hy]; exact ih seen
    · rw [dedupAcc, if_neg hy]
      refine List.nodup_cons.mpr ⟨fun hmem => ?_, ih (y :: seen)⟩
      exact ((mem_dedupAcc ys (y :: seen) y).mp hmem).2 (List.mem_cons_self _ _)

theorem dedupAcc_congr : ∀ (l s₁ s₂ : List String), (∀ x, x ∈ s₁ ↔ x ∈ s₂) →
    dedupAcc s₁ l = dedupAcc s₂ l := by
  intro l
  induction l with
  | nil => intro s₁ s₂ _; rfl
  | cons y ys ih =>
    intro s₁ s₂ hs
    by_cases hy : y ∈ s₁
    · rw [dedupAcc, if_pos hy, dedupAcc, if_pos ((hs y).mp hy)]
      exact ih s₁ s₂ hs
    · rw [dedupAcc, if_neg hy, dedupAcc, if_neg (fun h => hy ((hs y).mpr h))]
      refine congrArg _ (ih _ _ fun x => ?_)
      simp only [List.mem_cons]
      exact or_congr Iff.rfl (hs x)

theorem dedupAcc_dedupAcc_append : ∀ (a : List String) (s b : List String),
    dedupAcc s (dedupAcc s a ++ b) = dedupAcc s (a ++ b) := by
  intro a
  induction a with
  | nil => intro s b; rfl
  | cons x t ih =>
    intro s b
    by_cases hx : x ∈ s
    · rw [dedupAcc, if_pos hx, List.cons_append, dedupAcc, if_pos hx]
      exact ih s b
    · rw [dedupAcc, if_neg hx, List.cons_append, dedupAcc, if_neg hx,
        List.cons_append, dedupAcc, if_neg hx]
      exact congrArg _ (ih (x :: s) b)

theorem dedupAcc_eq_self : ∀ (l seen : List String), l.Nodup →
    (∀ x ∈ l, x ∉ seen) → dedupAcc seen l = l := by
  intro l
  induction l with
  | nil => intro seen _ _; rfl
  | cons y ys ih =>
    intro seen hnd hdisj
    rw [dedupAcc, if_neg (hdisj y (List.mem_cons_self _ _))]
    refine congrArg _ (ih _ (List.nodup_cons.mp hnd).2 fun x hx => ?_)
    intro hmem
    rcases List.mem_cons.mp hmem with rfl | h
    · exact (List.nodup_cons.mp hnd).1 hx
    · exact hdisj x (List.mem_cons_of_mem _ hx) h

theorem dedupFirst_nodup (l : List String) : (dedupFirst l).Nodup :=
  nodup_dedupAcc l []

theorem mem_dedupFirst (l : List String) (x : String) :
    x ∈ dedupFirst l ↔ x ∈ l := by
  rw [dedupFirst, mem_dedupAcc]; simp

theorem dedupFirst_eq_self (l : List String) (h : l.Nodup) : dedupFirst l = l :=
  dedupAcc_eq_self l [] h (by simp)

theorem dedupFirst_dedupFirst_append (a b : List String) :
    dedupFirst (dedupFirst a ++ b) = dedupFirst (a ++ b) :=
  dedupAcc_dedupAcc_append a [] b

theorem lookupA_cons (k' : String) (v : Deal) (m : List (String × Deal)) (k : String) :
    lookupA ((k', v) :: m) k = if k' = k then some v else lookupA m k := by
  by_cases h : k' = k <;> simp [lookupA, List.find?_cons, h]

theorem lookupA_eq_none : ∀ (m : List (String × Deal)) (k : String),
    lookupA m k = none ↔ k ∉ m.map Prod.fst := by
  intro m
  induction m with
  | nil => intro k; simp [lookupA]
  | cons p m ih =>
    intro k
    rcases p with ⟨k', v⟩
    rw [lookupA_cons]
    by_cases h : k' = k
    · subst h; simp
    · rw [if_neg h, ih, List.map_cons]
      simp only [List.mem_cons, not_or]
      exact (and_iff_right (fun hk : k = k' => h hk.symm)).symm

theorem lookupA_some_decomp : ∀ (m : List (String × Deal)) (k : String) (e : Deal),
    (m.map Prod.fst).Nodup → lookupA m k = some e →
    ∃ m₁ m₂, m = m₁ ++ (k, e) :: m₂ ∧ k ∉ m₁.map Prod.fst ∧ k ∉ m₂.map Prod.fst := by
  intro m
  induction m with
  | nil => intro k e _ h; simp [lookupA] at h
  | cons p m ih =>
    intro k e hnd h
    rcases p with ⟨k', v⟩
    rw [lookupA_cons] at h
    by_cases hk : k' = k
    · subst hk
      rw [if_pos rfl] at h
      obtain rfl := Option.some.inj h
      exact ⟨[], m, by simp, by simp, (List.nodup_cons.mp (by simpa using hnd)).1⟩
    · rw [if_neg hk] at h
      obtain ⟨m₁, m₂, hm, h1, h2⟩ := ih k e (List.nodup_cons.mp (by simpa using hnd)).2 h
      refine ⟨(k', v) :: m₁, m₂, by rw [hm]; rfl, ?_, h2⟩
      simp only [List.map_cons, List.mem_cons, not_or]
      exact ⟨fun hkk => hk hkk.symm, h1⟩

theorem mapSet_present : ∀ (m₁ m₂ : List (String × Deal)) (k : String) (e v : Deal),
    k ∉ m₁.map Prod.fst → k ∉ m₂.map Prod.fst →
    mapSet (m₁ ++ (k, e) :: m₂) k v = m₁ ++ (k, v) :: m₂ := by
  intro m₁ m₂ k e v h1 h2
  have hany : (m₁ ++ (k, e) :: m₂).any (fun p => decide (p.1 = k)) = true := by
    refine List.any_eq_true.mpr ⟨(k, e), ?_, by simp⟩
    simp
  rw [mapSet, if_pos hany, List.map_append, List.map_cons]
  have e1 : m₁.map (fun p => if p.1 = k then (k, v) else p) = m₁ := by
    rw [List.map_congr_left (g := id), List.map_id]
    intro p hp
    have : p.1 ≠ k := fun hpk => h1 (hpk ▸ List.mem_map_of_mem Prod.fst hp)
    simp [this]
  have e2 : m₂.map (fun p => if p.1 = k then (k, v) else p) = m₂ := by
    rw [List.map_congr_left (g := id), List.map_id]
    intro p hp
    have : p.1 ≠ k := fun hpk => h2 (hpk ▸ List.mem_map_of_mem Prod.fst hp)
    simp [this]
  rw [e1, e2]
  simp

theorem mapSet_absent (m : List (String × Deal)) (k : String) (v : Deal)
    (h : k ∉ m.map Prod.fst) : mapSet m k v = m ++ [(k, v)] := by
  rw [mapSet, if_neg]
  intro hany
  obtain ⟨p, hp, hpk⟩ := List.any_eq_true.mp hany
  exact h ((of_decide_eq_true hpk) ▸ List.mem_map_of_mem Prod.fst hp)

theorem groupOf_nil (k : String) : groupOf [] k = [] := rfl

theorem groupOf_cons (d : Deal) (l : List Deal) (k : String) :
    groupOf (d :: l) k = if gameKey d = k then d :: groupOf l k else groupOf l k := by
  by_cases h : gameKey d = k <;> simp [groupOf, List.filter_cons, h]

theorem mem_groupOf {l : List Deal} {k : String} {d : Deal} :
    d ∈ groupOf l k ↔ d ∈ l ∧ gameKey d = k := by
  simp [groupOf, List.mem_filter]

/-- Closed form of `mergeDealsByGame`'s fold, for an arbitrary starting
map with distinct keys: existing entries absorb their group's later
constituents, and each new key appears once, in first-occurrence order,
holding its whole group merged. -/
theorem foldl_step_closed : ∀ (l : List Deal) (m₀ : List (String × Deal)),
    (m₀.map Prod.fst).Nodup →
    l.foldl step m₀ =
      m₀.map (fun p => (p.1, (groupOf l p.1).foldl mergeInto p.2))
      ++ (dedupAcc (m₀.map Prod.fst) (l.map gameKey)).map
           (fun k => (k, mergeGroup (groupOf l k))) := by
  intro l
  induction l with
  | nil =>
    intro m₀ _
    simp [groupOf_nil, dedupAcc]
  | cons d l ih =>
    intro m₀ hnd
    rw [List.foldl_cons]
    cases hlk : lookupA m₀ (gameKey d) with
    | none =>
      have hk : gameKey d ∉ m₀.map Prod.fst := (lookupA_eq_none m₀ _).mp hlk
      have hstep : step m₀ d = m₀ ++ [(gameKey d, setIns d)] := by
        rw [step, hlk, mapSet_absent _ _ _ hk]
      have hnd' : ((m₀ ++ [(gameKey d, setIns d)]).map Prod.fst).Nodup := by
        rw [List.map_append, List.map_cons, List.map_nil]
        refine List.Nodup.append hnd (by simp) ?_
        intro x hx hxs
        have hxe : x = gameKey d := List.mem_singleton.mp hxs
        exact hk (hxe ▸ hx)
      rw [hstep, ih _ hnd']
      have h4 : (m₀ ++ [(gameKey d, setIns d)]).map
            (fun p => (p.1, (groupOf l p.1).foldl mergeInto p.2))
          = m₀.map (fun p => (p.1, (groupOf (d :: l) p.1).foldl mergeInto p.2))
            ++ [(gameKey d, mergeGroup (groupOf (d :: l) (gameKey d)))] := by
        rw [List.map_append]
        refine congrArg₂ (· ++ ·) (List.map_congr_left fun p hp => ?_) ?_
        · have hpk : gameKey d ≠ p.1 :=
            fun hpe => hk (hpe ▸ List.mem_map_of_mem Prod.fst hp)
          rw [groupOf_cons, if_neg hpk]
        · rw [List.map_cons, List.map_nil, groupOf_cons, if_pos rfl, mergeGroup]
      have h6 : dedupAcc ((m₀ ++ [(gameKey d, setIns d)]).map Prod.fst) (l.map gameKey)
          = dedupAcc (gameKey d :: m₀.map Prod.fst) (l.map gameKey) := by
        refine dedupAcc_congr _ _ _ fun x => ?_
        rw [List.map_append]
        simp [or_comm]
      have h7 : (dedupAcc (gameKey d :: m₀.map Prod.fst) (l.map gameKey)).map
            (fun k => (k, mergeGroup (groupOf l k)))
          = (dedupAcc (gameKey d :: m₀.map Prod.fst) (l.map gameKey)).map
            (fun k => (k, mergeGroup (groupOf (d :: l) k))) := by
        refine List.map_congr_left fun k' hk' => ?_
        have hmem : k' ∉ gameKey d :: m₀.map Prod.fst :=
          ((mem_dedupAcc _ _ _).mp hk').2
        have hne : gameKey d ≠ k' := fun he => hmem (he ▸ List.mem_cons_self _ _)
        rw [groupOf_cons, if_neg hne]
      rw [h4, h6, h7, List.map_cons]
      conv_rhs => rw [dedupAcc]
      rw [if_neg hk, List.map_cons, groupOf_cons, if_pos rfl, mergeGroup,
        List.append_assoc, List.singleton_append]
    | some e =>
      obtain ⟨m₁, m₂, hm, h1, h2⟩ := lookupA_some_decomp m₀ _ e hnd hlk
      subst hm
      have hstep : step (m₁ ++ (gameKey d, e) :: m₂) d
          = m₁ ++ (gameKey d, mergeInto e d) :: m₂ := by
        rw [step, hlk]
        exact mapSet_present _ _ _ _ _ h1 h2
      have hkeys : ((m₁ ++ (gameKey d, mergeInto e d) :: m₂).map Prod.fst).Nodup := by
        rw [List.map_append, List.map_cons]
        rw [List.map_append, List.map_cons] at hnd
        exact hnd
      have hseen : gameKey d ∈ ((m₁ ++ (gameKey d, e) :: m₂).map Prod.fst) := by
        rw [List.map_append, List.map_cons]
        exact List.mem_append_right _ (List.mem_cons_self _ _)
      rw [hstep, ih _ hkeys]
      have hseeneq : ∀ x, x ∈ ((m₁ ++ (gameKey d, mergeInto e d) :: m₂).map Prod.fst) ↔
          x ∈ ((m₁ ++ (gameKey d, e) :: m₂).map Prod.fst) := by
        intro x
        rw [List.map_append, List.map_cons, List.map_append, List.map_cons]
      have h4 : (m₁ ++ (gameKey d, mergeInto e d) :: m₂).map
            (fun p => (p.1, (groupOf l p.1).foldl mergeInto p.2))
          = (m₁ ++ (gameKey d, e) :: m₂).map
            (fun p => (p.1, (groupOf (d :: l) p.1).foldl mergeInto p.2)) := by
        rw [List.map_append, List.map_cons, List.map_append, List.map_cons]
        refine congrArg₂ (· ++ ·) (List.map_congr_left fun p hp => ?_)
          (congrArg₂ (· :: ·) ?_ (List.map_congr_left fun p hp => ?_))
        · have hpk : gameKey d ≠ p.1 :=
            fun hpe => h1 (hpe ▸ List.mem_map_of_mem Prod.fst hp)
          rw [groupOf_cons, if_neg hpk]
        · show (gameKey d, (groupOf l (gameKey d)).foldl mergeInto (mergeInto e d))
            = (gameKey d, (groupOf (d :: l) (gameKey d)).foldl mergeInto e)
          rw [groupOf_cons, if_pos rfl, List.foldl_cons]
        · have hpk : gameKey d ≠ p.1 :=
            fun hpe => h2 (hpe ▸ List.mem_map_of_mem Prod.fst hp)
          rw [groupOf_cons, if_neg hpk]
      have h6 : dedupAcc ((m₁ ++ (gameKey d, mergeInto e d) :: m₂).map Prod.fst)
            (l.map gameKey)
          = dedupAcc ((m₁ ++ (gameKey d, e) :: m₂).map Prod.fst) (l.map gameKey) :=
        dedupAcc_congr _ _ _ hseeneq
      have h7 : (dedupAcc ((m₁ ++ (gameKey d, e) :: m₂).map Prod.fst) (l.map gameKey)).map
            (fun k => (k, mergeGroup (groupOf l k)))
          = (dedupAcc ((m₁ ++ (gameKey d, e) :: m₂).map Prod.fst) (l.map gameKey)).map
            (fun k => (k, mergeGroup (groupOf (d :: l) k))) := by
        refine List.map_congr_left fun k' hk' => ?_
        have hmem := ((mem_dedupAcc _ _ _).mp hk').2
        have hne : gameKey d ≠ k' := fun he => hmem (he ▸ hseen)
        rw [groupOf_cons, if_neg hne]
      rw [h4, h6, h7, List.map_cons]
      conv_rhs => rw [dedupAcc]
      rw [if_pos hseen]

/-- `mergeDealsByGame` in closed form: one merged record per identity
key, in first-occurrence order. -/
theorem mergeDealsByGame_closed (l : List Deal) :
    mergeDealsByGame l
      = (dedupFirst (l.map gameKey)).map (fun k => mergeGroup (groupOf l k)) := by
  rw [mergeDealsByGame, foldl_step_closed l [] (by simp)]
  simp [dedupFirst, List.map_map]

/-! ### The base record of a merge group -/

theorem priceBase_append_one (d₀ : Deal) (rest : List Deal) (d : Deal) :
    priceBase d₀ (rest ++ [d]) = priceFold (priceBase d₀ rest) d := by
  simp [priceBase, List.foldl_append]

theorem pb_append_one (p : List Deal) (d : Deal) (hp : p ≠ []) :
    pb (p ++ [d]) = priceFold (pb p) d := by
  cases p with
  | nil => exact absurd rfl hp
  | cons d₀ rest => simp [pb, priceBase_append_one]

theorem priceBase_mem : ∀ (rest : List Deal) (d₀ : Deal),
    priceBase d₀ rest ∈ d₀ :: rest := by
  intro rest
  induction rest with
  | nil => intro d₀; simp [priceBase]
  | cons d t ih =>
    intro d₀
    have h : priceBase d₀ (d :: t) = priceBase (priceFold d₀ d) t := rfl
    rw [h]
    rcases List.mem_cons.mp (ih (priceFold d₀ d)) with he | he
    · rw [he, priceFold]
      by_cases hw : d.currentPrice < d₀.currentPrice
      · rw [if_pos hw]; exact List.mem_cons_of_mem _ (List.mem_cons_self _ _)
      · rw [if_neg hw]; exact List.mem_cons_self _ _
    · exact List.mem_cons_of_mem _ (List.mem_cons_of_mem _ he)

theorem priceFold_cp_le_left (x d : Deal) :
    (priceFold x d).currentPrice ≤ x.currentPrice := by
  rw [priceFold]
  by_cases hw : d.currentPrice < x.currentPrice
  · rw [if_pos hw]; exact le_of_lt hw
  · rw [if_neg hw]

theorem priceFold_cp_le_right (x d : Deal) :
    (priceFold x d).currentPrice ≤ d.currentPrice := by
  rw [priceFold]
  by_cases hw : d.currentPrice < x.currentPrice
  · rw [if_pos hw]
  · rw [if_neg hw]; exact le_of_not_lt hw

theorem priceBase_le : ∀ (rest : List Deal) (d₀ : Deal),
    ∀ x ∈ d₀ :: rest, (priceBase d₀ rest).currentPrice ≤ x.currentPrice := by
  intro rest
  induction rest with
  | nil =>
    intro d₀ x hx
    rcases List.mem_cons.mp hx with rfl | h
    · exact le_refl _
    · simp at h
  | cons d t ih =>
    intro d₀ x hx
    have h : priceBase d₀ (d :: t) = priceBase (priceFold d₀ d) t := rfl
    rw [h]
    have hhead : (priceBase (priceFold d₀ d) t).currentPrice
        ≤ (priceFold d₀ d).currentPrice :=
      ih (priceFold d₀ d) _ (List.mem_cons_self _ _)
    rcases List.mem_cons.mp hx with rfl | hx'
    · exact le_trans hhead (priceFold_cp_le_left _ _)
    · rcases List.mem_cons.mp hx' with rfl | hx''
      · exact le_trans hhead (priceFold_cp_le_right _ _)
      · exact ih (priceFold d₀ d) _ (List.mem_cons_of_mem _ hx'')

theorem priceBase_first : ∀ (rest : List Deal) (d₀ : Deal),
    ∃ pre post, d₀ :: rest = pre ++ priceBase d₀ rest :: post ∧
      ∀ x ∈ pre, (priceBase d₀ rest).currentPrice < x.currentPrice := by
  intro rest
  induction rest with
  | nil => intro d₀; exact ⟨[], [], rfl, by simp⟩
  | cons d t ih =>
    intro d₀
    obtain ⟨pre', post', heq, hlt⟩ := ih (priceFold d₀ d)
    have h : priceBase d₀ (d :: t) = priceBase (priceFold d₀ d) t := rfl
    set b := priceBase (priceFold d₀ d) t with hbdef
    by_cases hw : d.currentPrice < d₀.currentPrice
    · have hf : priceFold d₀ d = d := if_pos hw
      rw [hf] at heq
      refine ⟨d₀ :: pre', post', ?_, ?_⟩
      · rw [h, List.cons_append, ← heq]
      · intro x hx
        have hble : b.currentPrice ≤ d.currentPrice := by
          have hb2 := priceBase_le t (priceFold d₀ d) (priceFold d₀ d)
            (List.mem_cons_self _ _)
          rw [← hbdef] at hb2
          calc b.currentPrice ≤ (priceFold d₀ d).currentPrice := hb2
            _ ≤ d.currentPrice := priceFold_cp_le_right _ _
        rcases List.mem_cons.mp hx with rfl | hx'
        · rw [h]; exact lt_of_le_of_lt hble hw
        · rw [h]; exact hlt x hx'
    · have hf : priceFold d₀ d = d₀ := if_neg hw
      rw [hf] at heq
      cases pre' with
      | nil =>
        simp only [List.nil_append] at heq
        obtain ⟨hb, -⟩ := List.cons_eq_cons.mp heq
        refine ⟨[], d :: t, ?_, by simp⟩
        simp only [List.nil_append]
        rw [h, ← hb]
      | cons q pre'' =>
        simp only [List.cons_append] at heq
        obtain ⟨hq, ht⟩ := List.cons_eq_cons.mp heq
        refine ⟨d₀ :: d :: pre'', post', ?_, ?_⟩
        · rw [h]
          simp only [List.cons_append]
          rw [← ht]
        · intro x hx
          have hq' : b.currentPrice < d₀.currentPrice := by
            have hl := hlt q (List.mem_cons_self _ _)
            rw [← hq] at hl; exact hl
          rcases List.mem_cons.mp hx with rfl | hx'
          · rw [h]; exact hq'
          · rcases List.mem_cons.mp hx' with rfl | hx''
            · rw [h]; exact lt_of_lt_of_le hq' (le_of_not_lt hw)
            · rw [h]; exact hlt x (List.mem_cons_of_mem _ hx'')

theorem pb_mem (p : List Deal) (hp : p ≠ []) : pb p ∈ p := by
  cases p with
  | nil => exact absurd rfl hp
  | cons d₀ rest => exact priceBase_mem rest d₀

theorem pb_le (p : List Deal) (hp : p ≠ []) :
    ∀ x ∈ p, (pb p).currentPrice ≤ x.currentPrice := by
  cases p with
  | nil => exact absurd rfl hp
  | cons d₀ rest => exact priceBase_le rest d₀

/-! ### Fields of a merged record come from the base record -/

/-- Invariant relating a map entry to the group of constituents already
processed: every non-combined field equals that of the price base, and
`platforms` is the duplicate-free flattening of the group's platforms. -/
structure InvBase (p : List Deal) (a : Deal) : Prop where
  title_eq : a.title = (pb p).title
  image_eq : a.image = (pb p).image
  listPrice_eq : a.listPrice = (pb p).listPrice
  currentPrice_eq : a.currentPrice = (pb p).currentPrice
  dealId_eq : a.dealId = (pb p).dealId
  gameId_eq : a.gameId = (pb p).gameId
  steamAppId_eq : a.steamAppId = (pb p).steamAppId
  metacriticScore_eq : a.metacriticScore = (pb p).metacriticScore
  platforms_eq : a.platforms = dedupFirst (p.flatMap Deal.platforms)

theorem priceFold_field {α : Sort _} (f : Deal → α) (a b d : Deal)
    (hc : a.currentPrice = b.currentPrice) (hf : f a = f b) :
    f (priceFold a d) = f (priceFold b d) := by
  rw [priceFold, priceFold, hc]
  by_cases hw : d.currentPrice < b.currentPrice
  · rw [if_pos hw, if_pos hw]
  · rw [if_neg hw, if_neg hw]; exact hf

theorem invBase_init (d : Deal) : InvBase [d] (setIns d) := by
  refine ⟨rfl, rfl, rfl, rfl, rfl, rfl, rfl, rfl, ?_⟩
  simp [setIns]

theorem invBase_step (p : List Deal) (a d : Deal) (hp : p ≠ [])
    (h : InvBase p a) : InvBase (p ++ [d]) (mergeInto a d) := by
  have hpb : pb (p ++ [d]) = priceFold (pb p) d := pb_append_one p d hp
  refine ⟨?_, ?_, ?_, ?_, ?_, ?_, ?_, ?_, ?_⟩
  · exact hpb ▸ priceFold_field Deal.title a (pb p) d h.currentPrice_eq h.title_eq
  · exact hpb ▸ priceFold_field Deal.image a (pb p) d h.currentPrice_eq h.image_eq
  · exact hpb ▸ priceFold_field Deal.listPrice a (pb p) d h.currentPrice_eq h.listPrice_eq
  · exact hpb ▸ priceFold_field Deal.currentPrice a (pb p) d h.currentPrice_eq
      h.currentPrice_eq
  · exact hpb ▸ priceFold_field Deal.dealId a (pb p) d h.currentPrice_eq h.dealId_eq
  · exact hpb ▸ priceFold_field Deal.gameId a (pb p) d h.currentPrice_eq h.gameId_eq
  · exact hpb ▸ priceFold_field Deal.steamAppId a (pb p) d h.currentPrice_eq
      h.steamAppId_eq
  · exact hpb ▸ priceFold_field Deal.metacriticScore a (pb p) d h.currentPrice_eq
      h.metacriticScore_eq
  · show dedupFirst (a.platforms ++ d.platforms) = _
    rw [h.platforms_eq, dedupFirst_dedupFirst_append]
    congr 1
    simp

theorem invBase_fold : ∀ (rest p : List Deal) (a : Deal), p ≠ [] → InvBase p a →
    InvBase (p ++ rest) (rest.foldl mergeInto a) := by
  intro rest
  induction rest with
  | nil => intro p a _ h; rw [List.append_nil]; exact h
  | cons d t ih =>
    intro p a hp h
    rw [List.append_cons p d t, List.foldl_cons]
    exact ih (p ++ [d]) (mergeInto a d) (by simp) (invBase_step p a d hp h)

theorem invBase_mergeGroup (d₀ : Deal) (rest : List Deal) :
    InvBase (d₀ :: rest) (mergeGroup (d₀ :: rest)) := by
  have h := invBase_fold rest [d₀] (setIns d₀) (by simp) (invBase_init d₀)
  rw [List.singleton_append] at h
  exact h

/-! ### Quality signals on a merged record -/

theorem foldl_max_init_le : ∀ (l : List ℚ) (z : ℚ), z ≤ l.foldl max z := by
  intro l
  induction l with
  | nil => intro z; exact le_refl z
  | cons x t ih =>
    intro z
    exact le_trans (le_max_left z x) (ih (max z x))

theorem foldl_max_append_one (l : List ℚ) (z x : ℚ) :
    (l ++ [x]).foldl max z = max (l.foldl max z) x := by
  rw [List.foldl_append]
  rfl

theorem mem_le_foldl_max : ∀ (l : List ℚ) (z x : ℚ), x ∈ l → x ≤ l.foldl max z := by
  intro l
  induction l with
  | nil => intro z x hx; simp at hx
  | cons y t ih =>
    intro z x hx
    rcases List.mem_cons.mp hx with rfl | hx'
    · exact le_trans (le_max_right z x) (foldl_max_init_le t (max z x))
    · exact ih (max z y) x hx'

/-- The running maximum (with `undefined` read as `0`) of a quality field
over a group of constituents. -/
def qualM (f : Deal → Option ℚ) (p : List Deal) : ℚ :=
  (p.map fun d => (f d).getD 0).foldl max 0

theorem qualM_nonneg (f : Deal → Option ℚ) (p : List Deal) : 0 ≤ qualM f p :=
  foldl_max_init_le _ 0

theorem qualM_append_one (f : Deal → Option ℚ) (p : List Deal) (d : Deal) :
    qualM f (p ++ [d]) = max (qualM f p) ((f d).getD 0) := by
  rw [qualM, List.map_append, List.map_cons, List.map_nil, foldl_max_append_one]
  rfl

theorem qualM_mem_le (f : Deal → Option ℚ) (p : List Deal) (x : Deal) (hx : x ∈ p) :
    (f x).getD 0 ≤ qualM f p :=
  mem_le_foldl_max _ 0 _ (List.mem_map_of_mem _ hx)

/-- Invariant for one quality field: the map entry holds the running
maximum when it is nonzero, and the base record's own value otherwise. -/
structure InvQual (f : Deal → Option ℚ) (p : List Deal) (a : Deal) : Prop where
  closed : f a = if qualM f p = 0 then f (pb p) else some (qualM f p)
  getD_eq : (f a).getD 0 = qualM f p

theorem invQual_init (f : Deal → Option ℚ) (d : Deal)
    (h0 : f (setIns d) = f d) (hnn : 0 ≤ (f d).getD 0) :
    InvQual f [d] (setIns d) := by
  have hm : qualM f [d] = (f d).getD 0 := by
    rw [qualM, List.map_cons, List.map_nil, List.foldl_cons, List.foldl_nil]
    exact max_eq_right hnn
  constructor
  · rw [h0, hm]
    by_cases hv : (f d).getD 0 = 0
    · rw [if_pos hv]; rfl
    · rw [if_neg hv]
      cases hfd : f d with
      | none => exact absurd (by rw [hfd]; rfl) hv
      | some q => rfl
  · rw [h0, hm]

theorem invQual_step (f : Deal → Option ℚ)
    (hsel : ∀ e d, f (mergeInto e d)
      = qualCombine (f e) (f d) (f (priceFold e d)))
    (p : List Deal) (a d : Deal) (hp : p ≠ [])
    (hcp : a.currentPrice = (pb p).currentPrice)
    (hq : InvQual f p a)
    (hnnp : ∀ x ∈ p, 0 ≤ (f x).getD 0) (hnnd : 0 ≤ (f d).getD 0) :
    InvQual f (p ++ [d]) (mergeInto a d) := by
  have hpb : pb (p ++ [d]) = priceFold (pb p) d := pb_append_one p d hp
  have hM' : qualM f (p ++ [d]) = max (qualM f p) ((f d).getD 0) :=
    qualM_append_one f p d
  have hcomb : f (mergeInto a d)
      = if max ((f a).getD 0) ((f d).getD 0) = 0
          then f (priceFold a d)
          else some (max ((f a).getD 0) ((f d).getD 0)) := by
    rw [hsel a d]; rfl
  rw [hq.getD_eq] at hcomb
  by_cases hz : max (qualM f p) ((f d).getD 0) = 0
  · have hMz : qualM f p = 0 :=
      le_antisymm
        (le_of_le_of_eq (le_max_left (qualM f p) ((f d).getD 0)) hz)
        (qualM_nonneg f p)
    have hvz : (f d).getD 0 = 0 :=
      le_antisymm
        (le_of_le_of_eq (le_max_right (qualM f p) ((f d).getD 0)) hz) hnnd
    have hbase : f (priceFold a d) = f (priceFold (pb p) d) := by
      refine priceFold_field f a (pb p) d hcp ?_
      rw [hq.closed, if_pos hMz]
    have hpbz : (f (pb p)).getD 0 = 0 := by
      have h1 : (f (pb p)).getD 0 ≤ qualM f p := qualM_mem_le f p _ (pb_mem p hp)
      have h2 : 0 ≤ (f (pb p)).getD 0 := hnnp _ (pb_mem p hp)
      exact le_antisymm (hMz ▸ h1) h2
    constructor
    · rw [hcomb, if_pos hz, hM', if_pos hz, hpb]
      exact hbase
    · rw [hcomb, if_pos hz, hM', hz, hbase, priceFold]
      by_cases hw : d.currentPrice < (pb p).currentPrice
      · rw [if_pos hw]; exact hvz
      · rw [if_neg hw]; exact hpbz
  · constructor
    · rw [hcomb, if_neg hz, hM', if_neg hz]
    · rw [hcomb, if_neg hz, hM']
      rfl

theorem invQual_fold (f : Deal → Option ℚ)
    (hsel : ∀ e d, f (mergeInto e d)
      = qualCombine (f e) (f d) (f (priceFold e d))) :
    ∀ (rest p : List Deal) (a : Deal), p ≠ [] → InvBase p a → InvQual f p a →
      (∀ x ∈ p, 0 ≤ (f x).getD 0) → (∀ x ∈ rest, 0 ≤ (f x).getD 0) →
      InvQual f (p ++ rest) (rest.foldl mergeInto a) := by
  intro rest
  induction rest with
  | nil => intro p a _ _ hq _ _; rw [List.append_nil]; exact hq
  | cons d t ih =>
    intro p a hp hb hq hnnp hnnr
    rw [List.append_cons p d t, List.foldl_cons]
    have hnnd : 0 ≤ (f d).getD 0 := hnnr d (List.mem_cons_self _ _)
    have hnnp' : ∀ x ∈ p ++ [d], 0 ≤ (f x).getD 0 := by
      intro x hx
      rcases List.mem_append.mp hx with hx' | hx'
      · exact hnnp x hx'
      · rw [List.mem_singleton.mp hx']; exact hnnd
    exact ih (p ++ [d]) (mergeInto a d) (by simp)
      (invBase_step p a d hp hb)
      (invQual_step f hsel p a d hp hb.currentPrice_eq hq hnnp hnnd)
      hnnp'
      (fun x hx => hnnr x (List.mem_cons_of_mem _ hx))

theorem invQual_mergeGroup (f : Deal → Option ℚ)
    (hsel : ∀ e d, f (mergeInto e d)
      = qualCombine (f e) (f d) (f (priceFold e d)))
    (h0 : ∀ d, f (setIns d) = f d)
    (d₀ : Deal) (rest : List Deal)
    (hnn : ∀ x ∈ d₀ :: rest, 0 ≤ (f x).getD 0) :
    InvQual f (d₀ :: rest) (mergeGroup (d₀ :: rest)) := by
  have h := invQual_fold f hsel rest [d₀] (setIns d₀) (by simp)
    (invBase_init d₀)
    (invQual_init f d₀ (h0 d₀) (hnn d₀ (List.mem_cons_self _ _)))
    (by intro x hx; rw [List.mem_singleton.mp hx]; exact hnn d₀ (List.mem_cons_self _ _))
    (fun x hx => hnn x (List.mem_cons_of_mem _ hx))
  rw [List.singleton_append] at h
  exact h

theorem hsel_steamRatingPercent : ∀ e d : Deal,
    (mergeInto e d).steamRatingPercent
      = qualCombine e.steamRatingPercent d.steamRatingPercent
          ((priceFold e d).steamRatingPercent) :=
  fun _ _ => rfl

theorem hsel_steamRatingCount : ∀ e d : Deal,
    (mergeInto e d).steamRatingCount
      = qualCombine e.steamRatingCount d.steamRatingCount
          ((priceFold e d).steamRatingCount) :=
  fun _ _ => rfl

theorem hsel_dealRating : ∀ e d : Deal,
    (mergeInto e d).dealRating
      = qualCombine e.dealRating d.dealRating ((priceFold e d).dealRating) :=
  fun _ _ => rfl

/-! ### Assembling the merge characterization -/

theorem gameKey_congr (a b : Deal) (hs : a.steamAppId = b.steamAppId)
    (hg : a.gameId = b.gameId) (ht : a.title = b.title) :
    gameKey a = gameKey b := by
  rw [gameKey, gameKey, hs, hg, ht]

theorem gameKey_mergeGroup (d₀ : Deal) (rest : List Deal) :
    gameKey (mergeGroup (d₀ :: rest)) = gameKey (pb (d₀ :: rest)) :=
  gameKey_congr _ _ (invBase_mergeGroup d₀ rest).steamAppId_eq
    (invBase_mergeGroup d₀ rest).gameId_eq (invBase_mergeGroup d₀ rest).title_eq

theorem groupOf_cons_exists (l : List Deal) (k : String)
    (hk : k ∈ dedupFirst (l.map gameKey)) :
    ∃ d₀ rest, groupOf l k = d₀ :: rest := by
  have hk' : k ∈ l.map gameKey := (mem_dedupFirst _ _).mp hk
  obtain ⟨d, hd, hdk⟩ := List.mem_map.mp hk'
  have hmem : d ∈ groupOf l k := mem_groupOf.mpr ⟨hd, hdk⟩
  cases hg : groupOf l k with
  | nil => rw [hg] at hmem; simp at hmem
  | cons d₀ rest => exact ⟨d₀, rest, rfl⟩

theorem gameKey_mergeGroup_of (l : List Deal) (k : String)
    (hk : k ∈ dedupFirst (l.map gameKey)) :
    gameKey (mergeGroup (groupOf l k)) = k := by
  obtain ⟨d₀, rest, hg⟩ := groupOf_cons_exists l k hk
  rw [hg, gameKey_mergeGroup]
  have hmem : pb (d₀ :: rest) ∈ groupOf l k := by
    rw [hg]; exact pb_mem _ (by simp)
  exact (mem_groupOf.mp hmem).2

theorem mergeDealsByGame_keys (l : List Deal) :
    (mergeDealsByGame l).map gameKey = dedupFirst (l.map gameKey) := by
  rw [mergeDealsByGame_closed, List.map_map]
  conv_rhs => rw [← List.map_id (dedupFirst (l.map gameKey))]
  exact List.map_congr_left fun k hk => gameKey_mergeGroup_of l k hk

theorem mem_mergeDealsByGame (l : List Deal) (e : Deal)
    (he : e ∈ mergeDealsByGame l) :
    ∃ k, k ∈ dedupFirst (l.map gameKey) ∧ e = mergeGroup (groupOf l k) := by
  rw [mergeDealsByGame_closed] at he
  obtain ⟨k, hk, hek⟩ := List.mem_map.mp he
  exact ⟨k, hk, hek.symm⟩

/-- Claim C4: `mergeDealsByGame` returns exactly one entry per distinct
identity key, in first-occurrence order; within a group the base record is
the constituent with the strictly lower `currentPrice` (ties favoring the
earlier constituent), so the output's `currentPrice` is the group minimum;
the output's `platforms` is the duplicate-free union of the group's
platforms; and each of `steamRatingPercent`, `steamRatingCount` and
`dealRating` is the running maximum over the group (`undefined` read as 0)
— never lower than any constituent's value — falling back to the base
record's own value exactly when that maximum is zero.  Quality signals are
non-negative by construction (ratings, counts), stated here as a
hypothesis. -/
theorem mergeDealsByGame_characterization (l : List Deal)
    (hq : ∀ d ∈ l, 0 ≤ d.steamRatingPercent.getD 0 ∧
      0 ≤ d.steamRatingCount.getD 0 ∧ 0 ≤ d.dealRating.getD 0) :
    ((mergeDealsByGame l).map gameKey = dedupFirst (l.map gameKey)) ∧
    ((mergeDealsByGame l).map gameKey).Nodup ∧
    (∀ e ∈ mergeDealsByGame l, ∀ d₀ rest, groupOf l (gameKey e) = d₀ :: rest →
      (pb (d₀ :: rest) ∈ d₀ :: rest) ∧
      (∀ x ∈ d₀ :: rest, (pb (d₀ :: rest)).currentPrice ≤ x.currentPrice) ∧
      (∃ pre post, d₀ :: rest = pre ++ pb (d₀ :: rest) :: post ∧
        ∀ x ∈ pre, (pb (d₀ :: rest)).currentPrice < x.currentPrice) ∧
      e.title = (pb (d₀ :: rest)).title ∧
      e.listPrice = (pb (d₀ :: rest)).listPrice ∧
      e.currentPrice = (pb (d₀ :: rest)).currentPrice ∧
      e.platforms.Nodup ∧
      (∀ x, x ∈ e.platforms ↔ ∃ d ∈ d₀ :: rest, x ∈ d.platforms) ∧
      (∀ x ∈ d₀ :: rest,
        x.steamRatingPercent.getD 0 ≤ e.steamRatingPercent.getD 0) ∧
      (∀ x ∈ d₀ :: rest,
        x.steamRatingCount.getD 0 ≤ e.steamRatingCount.getD 0) ∧
      (∀ x ∈ d₀ :: rest, x.dealRating.getD 0 ≤ e.dealRating.getD 0) ∧
      e.steamRatingPercent =
        (if qualM Deal.steamRatingPercent (d₀ :: rest) = 0
          then (pb (d₀ :: rest)).steamRatingPercent
          else some (qualM Deal.steamRatingPercent (d₀ :: rest))) ∧
      e.steamRatingCount =
        (if qualM Deal.steamRatingCount (d₀ :: rest) = 0
          then (pb (d₀ :: rest)).steamRatingCount
          else some (qualM Deal.steamRatingCount (d₀ :: rest))) ∧
      e.dealRating =
        (if qualM Deal.dealRating (d₀ :: rest) = 0
          then (pb (d₀ :: rest)).dealRating
          else some (qualM Deal.dealRating (d₀ :: rest)))) := by
  refine ⟨mergeDealsByGame_keys l, ?_, ?_⟩
  · rw [mergeDealsByGame_keys l]; exact dedupFirst_nodup _
  · intro e he d₀ rest hg
    obtain ⟨k, hk, hek⟩ := mem_mergeDealsByGame l e he
    have hkey : gameKey e = k := by rw [hek]; exact gameKey_mergeGroup_of l k hk
    rw [hkey] at hg
    subst hek
    rw [hg]
    have hb := invBase_mergeGroup d₀ rest
    have hmem_l : ∀ x ∈ d₀ :: rest, x ∈ l :=
      fun x hx => (mem_groupOf.mp (hg ▸ hx)).1
    have hq1 := invQual_mergeGroup Deal.steamRatingPercent
      hsel_steamRatingPercent (fun _ => rfl) d₀ rest
      (fun x hx => (hq x (hmem_l x hx)).1)
    have hq2 := invQual_mergeGroup Deal.steamRatingCount
      hsel_steamRatingCount (fun _ => rfl) d₀ rest
      (fun x hx => (hq x (hmem_l x hx)).2.1)
    have hq3 := invQual_mergeGroup Deal.dealRating
      hsel_dealRating (fun _ => rfl) d₀ rest
      (fun x hx => (hq x (hmem_l x hx)).2.2)
    refine ⟨pb_mem _ (by simp), pb_le _ (by simp), priceBase_first rest d₀,
      hb.title_eq, hb.listPrice_eq, hb.currentPrice_eq, ?_, ?_, ?_, ?_, ?_,
      hq1.closed, hq2.closed, hq3.closed⟩
    · rw [hb.platforms_eq]; exact dedupFirst_nodup _
    · intro x
      rw [hb.platforms_eq, mem_dedupFirst, List.mem_flatMap]
    · intro x hx; rw [hq1.getD_eq]; exact qualM_mem_le _ _ x hx
    · intro x hx; rw [hq2.getD_eq]; exact qualM_mem_le _ _ x hx
    · intro x hx; rw [hq3.getD_eq]; exact qualM_mem_le _ _ x hx

/-! ### Commutativity and idempotence of the merge -/

theorem mergeDealsByGame_pair (A B : Deal) (hk : gameKey B = gameKey A) :
    mergeDealsByGame [A, B] = [mergeInto (setIns A) B] := by
  rw [mergeDealsByGame_closed]
  have h1 : dedupFirst ([A, B].map gameKey) = [gameKey A] := by
    rw [List.map_cons, List.map_cons, List.map_nil, dedupFirst, dedupAcc,
      if_neg (by simp), hk, dedupAcc, if_pos (by simp)]
    rfl
  have h2 : groupOf [A, B] (gameKey A) = [A, B] := by
    rw [groupOf_cons, if_pos rfl, groupOf_cons, if_pos hk, groupOf_nil]
  rw [h1, List.map_cons, List.map_nil, h2]
  rfl

theorem toFinset_dedupFirst (l : List String) :
    (dedupFirst l).toFinset = l.toFinset := by
  ext x
  rw [List.mem_toFinset, List.mem_toFinset, mem_dedupFirst]

theorem qualCombine_getD (x y b : Option ℚ) (hb : b = x ∨ b = y)
    (hx : 0 ≤ x.getD 0) (hy : 0 ≤ y.getD 0) :
    (qualCombine x y b).getD 0 = max (x.getD 0) (y.getD 0) := by
  rw [qualCombine]
  by_cases hm : max (x.getD 0) (y.getD 0) = 0
  · rw [if_pos hm, hm]
    rcases hb with rfl | rfl
    · exact le_antisymm (le_of_le_of_eq (le_max_left _ _) hm) hx
    · exact le_antisymm (le_of_le_of_eq (le_max_right _ _) hm) hy
  · rw [if_neg hm]; rfl

theorem setIns_eq_self (e : Deal) (h : e.platforms.Nodup) : setIns e = e := by
  rw [setIns, dedupFirst_eq_self _ h]

theorem platforms_nodup_merge (l : List Deal) :
    ∀ e ∈ mergeDealsByGame l, e.platforms.Nodup := by
  intro e he
  obtain ⟨k, hk, hek⟩ := mem_mergeDealsByGame l e he
  obtain ⟨d₀, rest, hg⟩ := groupOf_cons_exists l k hk
  rw [hek, hg, (invBase_mergeGroup d₀ rest).platforms_eq]
  exact dedupFirst_nodup _

theorem groupOf_self_singleton : ∀ (l : List Deal), (l.map gameKey).Nodup →
    ∀ e ∈ l, groupOf l (gameKey e) = [e] := by
  intro l
  induction l with
  | nil => intro _ e he; simp at he
  | cons d t ih =>
    intro hnd e he
    have hnd2 : (gameKey d :: t.map gameKey).Nodup := by
      rw [List.map_cons] at hnd; exact hnd
    have hnd' := List.nodup_cons.mp hnd2
    rcases List.mem_cons.mp he with rfl | he'
    · rw [groupOf_cons, if_pos rfl]
      refine congrArg _ (List.filter_eq_nil_iff.mpr fun x hx => ?_)
      simp only [decide_eq_true_eq]
      intro hxk
      exact hnd'.1 (hxk ▸ List.mem_map_of_mem gameKey hx)
    · have hne : gameKey d ≠ gameKey e := by
        intro hde
        exact hnd'.1 (hde ▸ List.mem_map_of_mem gameKey he')
      rw [groupOf_cons, if_neg hne]
      exact ih hnd'.2 e he'

theorem mergeDealsByGame_fixed (l : List Deal)
    (hnd : (l.map gameKey).Nodup) (hfix : ∀ e ∈ l, setIns e = e) :
    mergeDealsByGame l = l := by
  rw [mergeDealsByGame_closed, dedupFirst_eq_self _ hnd, List.map_map]
  conv_rhs => rw [← List.map_id l]
  refine List.map_congr_left fun e he => ?_
  show mergeGroup (groupOf l (gameKey e)) = e
  rw [groupOf_self_singleton l hnd e he]
  show setIns e = e
  exact hfix e he

/-- Claim C5: the merge is commutative on a two-element group — merging
`[A, B]` and `[B, A]` with the same identity key yields the same platform
set and the same numeric quality values — and idempotent: re-merging its
own output returns it unchanged. -/
theorem mergeDealsByGame_comm_idem :
    (∀ A B : Deal, gameKey A = gameKey B →
      0 ≤ A.steamRatingPercent.getD 0 → 0 ≤ A.steamRatingCount.getD 0 →
      0 ≤ A.dealRating.getD 0 →
      0 ≤ B.steamRatingPercent.getD 0 → 0 ≤ B.steamRatingCount.getD 0 →
      0 ≤ B.dealRating.getD 0 →
      (mergeDealsByGame [A, B]).map
          (fun e => (e.platforms.toFinset, e.steamRatingPercent.getD 0,
            e.steamRatingCount.getD 0, e.dealRating.getD 0))
        = (mergeDealsByGame [B, A]).map
          (fun e => (e.platforms.toFinset, e.steamRatingPercent.getD 0,
            e.steamRatingCount.getD 0, e.dealRating.getD 0))) ∧
    (∀ l : List Deal, mergeDealsByGame (mergeDealsByGame l) = mergeDealsByGame l) := by
  constructor
  · intro A B hk hA1 hA2 hA3 hB1 hB2 hB3
    rw [mergeDealsByGame_pair A B hk.symm, mergeDealsByGame_pair B A hk,
      List.map_cons, List.map_nil, List.map_cons, List.map_nil]
    have hplat : (mergeInto (setIns A) B).platforms.toFinset
        = (mergeInto (setIns B) A).platforms.toFinset := by
      show (dedupFirst ((setIns A).platforms ++ B.platforms)).toFinset
        = (dedupFirst ((setIns B).platforms ++ A.platforms)).toFinset
      rw [toFinset_dedupFirst, toFinset_dedupFirst]
      show (dedupFirst A.platforms ++ B.platforms).toFinset
        = (dedupFirst B.platforms ++ A.platforms).toFinset
      rw [List.toFinset_append, List.toFinset_append,
        toFinset_dedupFirst, toFinset_dedupFirst]
      exact Finset.union_comm _ _
    have hqual : ∀ (f : Deal → Option ℚ),
        (∀ e d, f (mergeInto e d) = qualCombine (f e) (f d) (f (priceFold e d))) →
        (∀ d, f (setIns d) = f d) →
        0 ≤ (f A).getD 0 → 0 ≤ (f B).getD 0 →
        (f (mergeInto (setIns A) B)).getD 0 = (f (mergeInto (setIns B) A)).getD 0 := by
      intro f hsel h0 hfa hfb
      rw [hsel, hsel, h0, h0]
      rw [qualCombine_getD (f A) (f B) _ ?_ hfa hfb,
        qualCombine_getD (f B) (f A) _ ?_ hfb hfa]
      · exact max_comm _ _
      · rw [priceFold]
        by_cases hw : A.currentPrice < (setIns B).currentPrice
        · rw [if_pos hw]; exact Or.inr rfl
        · rw [if_neg hw]; exact Or.inl (h0 B)
      · rw [priceFold]
        by_cases hw : B.currentPrice < (setIns A).currentPrice
        · rw [if_pos hw]; exact Or.inr rfl
        · rw [if_neg hw]; exact Or.inl (h0 A)
    refine congrArg (fun x => [x]) ?_
    refine Prod.ext hplat (Prod.ext ?_ (Prod.ext ?_ ?_))
    · exact hqual Deal.steamRatingPercent hsel_steamRatingPercent (fun _ => rfl) hA1 hB1
    · exact hqual Deal.steamRatingCount hsel_steamRatingCount (fun _ => rfl) hA2 hB2
    · exact hqual Deal.dealRating hsel_dealRating (fun _ => rfl) hA3 hB3
  · intro l
    refine mergeDealsByGame_fixed _ ?_ ?_
    · rw [mergeDealsByGame_keys]; exact dedupFirst_nodup _
    · exact fun e he => setIns_eq_self e (platforms_nodup_merge l e he)

/-! ## CheapShark client (`src/services/cheapshark.ts`) -/

/-- `String.prototype.includes`: `sub` occurs contiguously in the list. -/
def inclAux (sub : List Char) : List Char → Bool
  | [] => sub.isEmpty
  | c :: t => sub.isPrefixOf (c :: t) || inclAux sub t

/-- `s.includes(sub)` for strings. -/
def jsIncludes (s sub : String) : Bool := inclAux sub.data s.data

/-- `normalizeStoreKey` from `src/services/cheapshark.ts`: the id → key
table, then the name-substring fallbacks, then `name || storeID`. -/
def normalizeStoreKey (storeID : String) (storeName : Option String) : String :=
  if storeID = "1" then "steam"
  else if storeID = "25" then "epic"
  else if storeID = "11" then "humble"
  else
    let name := jsToLower (storeName.getD "")
    if jsIncludes name "steam" then "steam"
    else if jsIncludes name "epic" then "epic"
    else if jsIncludes name "humble" then "humble"
    else if jsIncludes name "gog" then "gog"
    else if name.isEmpty then storeID else name

/-- The CheapShark `/deals` response item (`type CheapSharkDeal`). -/
structure CheapSharkDeal where
  internalName : String
  title : String
  metacriticLink : Option String
  dealID : String
  storeID : String
  gameID : String
  salePrice : String
  normalPrice : String
  isOnSale : String
  savings : String
  steamRatingText : Option String
  steamRatingPercent : String
  steamRatingCount : String
  steamAppID : Option String
  releaseDate : ℤ
  lastChange : ℤ
  dealRating : String
  thumb : String
deriving DecidableEq

/-- `mapDeal` from `src/services/cheapshark.ts`.  The numeric-string
parser `safeNumber` (JavaScript `Number(...)` with a finiteness check) is
passed in as a parameter; no claim depends on the parsed values. -/
def mapDeal (safeNumber : String → ℚ) (d : CheapSharkDeal)
    (storeName : Option String) : Deal :=
  let platformKey := normalizeStoreKey d.storeID storeName
  let links0 : List (String × String) :=
    if jsTruthyStr d.steamAppID then
      objSet [] "steam"
        ("https://store.steampowered.com/app/" ++ d.steamAppID.getD "" ++ "/")
    else []
  let links : List (String × String) :=
    if !d.dealID.isEmpty then
      objSet links0 platformKey
        ("https://www.cheapshark.com/redirect?dealID=" ++ d.dealID)
    else links0
  { title := d.title
    image := d.thumb
    listPrice := safeNumber d.normalPrice
    currentPrice := safeNumber d.salePrice
    platforms := [platformKey]
    dealId := some d.dealID
    gameId := some d.gameID
    steamAppId := d.steamAppID
    claimLinks := if links.isEmpty then none else some links
    steamRatingPercent := some (safeNumber d.steamRatingPercent)
    steamRatingCount := some (safeNumber d.steamRatingCount)
    dealRating := some (safeNumber d.dealRating) }

/-- `obj[k]` on the association-list record. -/
def lookupS (m : List (String × String)) (k : String) : Option String :=
  (m.find? (fun p => decide (p.1 = k))).map Prod.snd

theorem objSet_nil (k v : String) : objSet [] k v = [(k, v)] := rfl

theorem objSet_single_ne (k₁ v₁ k v : String) (h : k₁ ≠ k) :
    objSet [(k₁, v₁)] k v = [(k₁, v₁), (k, v)] := by
  rw [objSet, if_neg]
  · rfl
  · simp [h]

theorem objSet_single_eq (k v₁ v : String) : objSet [(k, v₁)] k v = [(k, v)] := by
  rw [objSet, if_pos (by simp)]
  simp

/-- Claim C7 counterexample: for an unmapped id whose store name matches
none of the four substrings, `normalizeStoreKey` returns the lowercased
store name — not the raw store identifier the claim asserts. -/
theorem normalizeStoreKey_cex :
    normalizeStoreKey "5" (some "GamersGate") = "gamersgate" ∧
    normalizeStoreKey "5" (some "GamersGate") ≠ "5" := by
  constructor
  · decide
  · decide

/-- Claim C7 (amended): the id → key table (`"1"`→steam, `"25"`→epic,
`"11"`→humble) takes priority; for any other id the first of
steam/epic/humble/gog occurring as a substring of the lowercased store
name wins; when no substring matches, the result is the lowercased store
name if it is non-empty, and only for an empty name the raw store
identifier. -/
theorem normalizeStoreKey_characterization (id : String) (nm : Option String) :
    (id = "1" → normalizeStoreKey id nm = "steam") ∧
    (id = "25" → normalizeStoreKey id nm = "epic") ∧
    (id = "11" → normalizeStoreKey id nm = "humble") ∧
    (id ≠ "1" → id ≠ "25" → id ≠ "11" →
      (jsIncludes (jsToLower (nm.getD "")) "steam" = true →
        normalizeStoreKey id nm = "steam") ∧
      (jsIncludes (jsToLower (nm.getD "")) "steam" = false →
        jsIncludes (jsToLower (nm.getD "")) "epic" = true →
        normalizeStoreKey id nm = "epic") ∧
      (jsIncludes (jsToLower (nm.getD "")) "steam" = false →
        jsIncludes (jsToLower (nm.getD "")) "epic" = false →
        jsIncludes (jsToLower (nm.getD "")) "humble" = true →
        normalizeStoreKey id nm = "humble") ∧
      (jsIncludes (jsToLower (nm.getD "")) "steam" = false →
        jsIncludes (jsToLower (nm.getD "")) "epic" = false →
        jsIncludes (jsToLower (nm.getD "")) "humble" = false →
        jsIncludes (jsToLower (nm.getD "")) "gog" = true →
        normalizeStoreKey id nm = "gog") ∧
      (jsIncludes (jsToLower (nm.getD "")) "steam" = false →
        jsIncludes (jsToLower (nm.getD "")) "epic" = false →
        jsIncludes (jsToLower (nm.getD "")) "humble" = false →
        jsIncludes (jsToLower (nm.getD "")) "gog" = false →
        (jsToLower (nm.getD "") ≠ "" →
          normalizeStoreKey id nm = jsToLower (nm.getD "")) ∧
        (jsToLower (nm.getD "") = "" → normalizeStoreKey id nm = id))) := by
  refine ⟨?_, ?_, ?_, ?_⟩
  · intro h; rw [normalizeStoreKey, if_pos h]
  · intro h
    rw [normalizeStoreKey, if_neg (by rw [h]; decide), if_pos h]
  · intro h
    rw [normalizeStoreKey, if_neg (by rw [h]; decide),
      if_neg (by rw [h]; decide), if_pos h]
  · intro h1 h2 h3
    simp only [normalizeStoreKey]
    rw [if_neg h1, if_neg h2, if_neg h3]
    refine ⟨?_, ?_, ?_, ?_, ?_⟩
    · intro hst; rw [if_pos hst]
    · intro hst hep
      rw [if_neg (by simp [hst]), if_pos hep]
    · intro hst hep hhu
      rw [if_neg (by simp [hst]), if_neg (by simp [hep]), if_pos hhu]
    · intro hst hep hhu hgo
      rw [if_neg (by simp [hst]), if_neg (by simp [hep]),
        if_neg (by simp [hhu]), if_pos hgo]
    · intro hst hep hhu hgo
      rw [if_neg (by simp [hst]), if_neg (by simp [hep]),
        if_neg (by simp [hhu]), if_neg (by simp [hgo])]
      constructor
      · intro hne
        rw [if_neg (by simp [String.isEmpty_iff, hne])]
      · intro heq
        rw [if_pos (by simp [String.isEmpty_iff, heq])]

/-- A concrete raw Steam deal (store id `"1"`, a `steamAppID` and a
`dealID` both present) used to exercise `mapDeal`'s claim-link building. -/
def csSteamDeal : CheapSharkDeal :=
  { internalName := "GAME", title := "Game", metacriticLink := none,
    dealID := "D1", storeID := "1", gameID := "G1",
    salePrice := "1.00", normalPrice := "2.00", isOnSale := "1",
    savings := "50", steamRatingText := none, steamRatingPercent := "90",
    steamRatingCount := "100", steamAppID := some "10",
    releaseDate := 0, lastChange := 0, dealRating := "9", thumb := "t" }

/-- Claim C8 counterexample: when the resolved storefront key is itself
`steam`, the CheapShark redirect overwrites the direct Steam product URL
— the two entries do not coexist, and the `steam` key holds the redirect,
not the direct link. -/
theorem mapDeal_claimLinks_cex :
    (mapDeal (fun _ => 0) csSteamDeal none).claimLinks
      = some [("steam", "https://www.cheapshark.com/redirect?dealID=D1")] ∧
    lookupS ((mapDeal (fun _ => 0) csSteamDeal none).claimLinks.getD []) "steam"
      ≠ some "https://store.steampowered.com/app/10/" := by
  constructor
  · decide
  · decide

/-- Claim C8 (amended): when both `steamAppID` and `dealID` are truthy,
`claimLinks` holds the direct Steam product URL under `steam` and the
CheapShark redirect under the resolved storefront key, and both coexist —
but only when that key differs from `steam`; when the resolved key is
`steam` itself, the redirect overwrites the direct link, leaving a single
`steam` entry holding the redirect URL. -/
theorem mapDeal_claimLinks_characterization (safeNumber : String → ℚ)
    (d : CheapSharkDeal) (nm : Option String)
    (happ : jsTruthyStr d.steamAppID = true) (hdeal : d.dealID ≠ "") :
    (normalizeStoreKey d.storeID nm ≠ "steam" →
      (mapDeal safeNumber d nm).claimLinks = some
        [("steam",
          "https://store.steampowered.com/app/" ++ d.steamAppID.getD "" ++ "/"),
         (normalizeStoreKey d.storeID nm,
          "https://www.cheapshark.com/redirect?dealID=" ++ d.dealID)]) ∧
    (normalizeStoreKey d.storeID nm = "steam" →
      (mapDeal safeNumber d nm).claimLinks = some
        [("steam", "https://www.cheapshark.com/redirect?dealID=" ++ d.dealID)]) := by
  have hdB : (!d.dealID.isEmpty) = true := by
    cases hb : d.dealID.isEmpty
    · rfl
    · exact absurd ((String.isEmpty_iff d.dealID).mp hb) hdeal
  have hlinks0 : (if jsTruthyStr d.steamAppID then
        objSet [] "steam"
          ("https://store.steampowered.com/app/" ++ d.steamAppID.getD "" ++ "/")
      else []) = [("steam",
        "https://store.steampowered.com/app/" ++ d.steamAppID.getD "" ++ "/")] := by
    rw [if_pos happ, objSet_nil]
  constructor
  · intro hne
    show (if ((if !d.dealID.isEmpty then
          objSet (if jsTruthyStr d.steamAppID then
              objSet [] "steam"
                ("https://store.steampowered.com/app/" ++ d.steamAppID.getD "" ++ "/")
            else []) (normalizeStoreKey d.storeID nm)
            ("https://www.cheapshark.com/redirect?dealID=" ++ d.dealID)
        else (if jsTruthyStr d.steamAppID then
            objSet [] "steam"
              ("https://store.steampowered.com/app/" ++ d.steamAppID.getD "" ++ "/")
          else [])).isEmpty) then none else some _) = _
    rw [hlinks0, if_pos hdB,
      objSet_single_ne _ _ _ _ (fun hsp => hne hsp.symm)]
    rfl
  · intro heq
    show (if ((if !d.dealID.isEmpty then
          objSet (if jsTruthyStr d.steamAppID then
              objSet [] "steam"
                ("https://store.steampowered.com/app/" ++ d.steamAppID.getD "" ++ "/")
            else []) (normalizeStoreKey d.storeID nm)
            ("https://www.cheapshark.com/redirect?dealID=" ++ d.dealID)
        else (if jsTruthyStr d.steamAppID then
            objSet [] "steam"
              ("https://store.steampowered.com/app/" ++ d.steamAppID.getD "" ++ "/")
          else [])).isEmpty) then none else some _) = _
    rw [hlinks0, if_pos hdB, heq, objSet_single_eq]
    rfl

/-- Claim C10: `mapDeal` never populates `metacriticScore`;
`mergeDealsByGame` preserves that absence (every merged field is drawn
from constituents); hence for pipeline deals the Metacritic clauses of
`qualityTier` can never fire, and the tier is determined solely by
`steamRatingPercent` and `steamRatingCount`. -/
theorem metacriticScore_never_populated :
    (∀ (safeNumber : String → ℚ) (d : CheapSharkDeal) (nm : Option String),
      (mapDeal safeNumber d nm).metacriticScore = none) ∧
    (∀ l : List Deal, (∀ d ∈ l, d.metacriticScore = none) →
      ∀ e ∈ mergeDealsByGame l, e.metacriticScore = none) ∧
    (∀ d : Deal, d.metacriticScore = none →
      qualityTier d =
        (if d.steamRatingPercent.getD 0 ≥ 90 ∧ d.steamRatingCount.getD 0 ≥ 1000
          then .great
          else if d.steamRatingPercent.getD 0 ≥ 80 ∧ d.steamRatingCount.getD 0 ≥ 200
          then .good
          else .unknown)) := by
  refine ⟨fun _ _ _ => rfl, ?_, ?_⟩
  · intro l hl e he
    obtain ⟨k, hk, hek⟩ := mem_mergeDealsByGame l e he
    obtain ⟨d₀, rest, hg⟩ := groupOf_cons_exists l k hk
    rw [hek, hg, (invBase_mergeGroup d₀ rest).metacriticScore_eq]
    have hmem : pb (d₀ :: rest) ∈ groupOf l k := by
      rw [hg]; exact pb_mem _ (by simp)
    exact hl _ (mem_groupOf.mp hmem).1
  · intro d hd
    have h85 : ¬((0 : ℚ) ≥ 85) := by norm_num
    have h75 : ¬((0 : ℚ) ≥ 75) := by norm_num
    simp only [qualityTier, hd, Option.getD_none]
    rw [if_congr (iff_of_eq (congrArg _ rfl)) rfl rfl]
    congr 1
    · exact iff_iff_eq.mp (or_iff_left h85)
    · rw [if_congr (or_iff_left h75) rfl rfl]

/-! ## Ranking engine (deals screen, `sortedDeals`) -/

/-- The four sort modes of the deals screen. -/
inductive SortMode where
  | quality
  | discount
  | priceLow
  | priceHigh
deriving DecidableEq

/-- `qualityRank` from the deals screen: `great → 2`, `good → 1`, else 0. -/
def qualityRank (d : Deal) : ℚ :=
  if qualityTier d = .great then 2 else if qualityTier d = .good then 1 else 0

/-- `cmpNumberDesc` from the deals screen, with the JavaScript comparator
integers `-1/0/1` read as `Ordering.lt/.eq/.gt`. -/
def cmpNumberDesc {α : Type _} [LinearOrder α] (a b : α) : Ordering :=
  if a = b then .eq else if a > b then .lt else .gt

/-- `cmpNumberAsc` from the deals screen. -/
def cmpNumberAsc {α : Type _} [LinearOrder α] (a b : α) : Ordering :=
  if a = b then .eq else if a < b then .lt else .gt

/-- `a.localeCompare(b)`, modelled (per the spec) as case-sensitive
lexical comparison, reading the sign of the result as an `Ordering`. -/
def localeCmp (a b : String) : Ordering :=
  if a = b then .eq else if a < b then .lt else .gt

/-- The comparator of `sortedDeals`' `arr.sort(...)`, one chain of
tie-breaks per sort mode; each early `return` becomes `Ordering.then`. -/
def dealCmp (l10 : ℚ → ℚ) (mode : SortMode) (a b : Deal) : Ordering :=
  let sa := computeDealScore l10 a.listPrice a.currentPrice
  let sb := computeDealScore l10 b.listPrice b.currentPrice
  match mode with
  | .quality =>
    (cmpNumberDesc (qualityRank a) (qualityRank b)).then
      ((cmpNumberDesc sa.score sb.score).then
        ((cmpNumberDesc (a.dealRating.getD 0) (b.dealRating.getD 0)).then
          ((cmpNumberAsc a.currentPrice b.currentPrice).then
            (localeCmp a.title b.title))))
  | .discount =>
    (cmpNumberDesc sa.score sb.score).then
      ((cmpNumberDesc sa.discountPercent sb.discountPercent).then
        ((cmpNumberDesc sa.savings sb.savings).then
          ((cmpNumberAsc a.currentPrice b.currentPrice).then
            (localeCmp a.title b.title))))
  | .priceLow =>
    (cmpNumberAsc a.currentPrice b.currentPrice).then
      ((cmpNumberDesc sa.score sb.score).then
        ((cmpNumberDesc (qualityRank a) (qualityRank b)).then
          (localeCmp a.title b.title)))
  | .priceHigh =>
    (cmpNumberDesc a.currentPrice b.currentPrice).then
      ((cmpNumberDesc sa.score sb.score).then
        ((cmpNumberDesc (qualityRank a) (qualityRank b)).then
          (localeCmp a.title b.title)))

/-- `a` sorts no later than `b`: the comparator does not say "greater". -/
def dealLe (l10 : ℚ → ℚ) (mode : SortMode) (a b : Deal) : Bool :=
  decide (dealCmp l10 mode a b ≠ .gt)

/-- `const arr = [...visibleDeals]; arr.sort(cmp)`: JavaScript's stable
sort, modelled by the stable `List.mergeSort`. -/
def sortedDeals (l10 : ℚ → ℚ) (mode : SortMode) (l : List Deal) : List Deal :=
  l.mergeSort (dealLe l10 mode)

theorem cmpAsc_eq_eq_iff {α : Type _} [LinearOrder α] (a b : α) :
    cmpNumberAsc a b = .eq ↔ a = b := by
  rw [cmpNumberAsc]
  by_cases h : a = b
  · simp [h]
  · by_cases h2 : a < b <;> simp [h, h2]

theorem cmpDesc_eq_eq_iff {α : Type _} [LinearOrder α] (a b : α) :
    cmpNumberDesc a b = .eq ↔ a = b := by
  rw [cmpNumberDesc]
  by_cases h : a = b
  · simp [h]
  · by_cases h2 : a > b <;> simp [h, h2]

theorem localeCmp_eq_eq_iff (a b : String) : localeCmp a b = .eq ↔ a = b := by
  rw [localeCmp]
  by_cases h : a = b
  · simp [h]
  · by_cases h2 : a < b <;> simp [h, h2]

theorem localeCmp_swap (a b : String) : (localeCmp a b).swap = localeCmp b a := by
  rw [localeCmp, localeCmp]
  rcases lt_trichotomy a b with h | h | h
  · rw [if_neg (ne_of_lt h), if_pos h, if_neg (Ne.symm (ne_of_lt h)),
      if_neg (asymm h)]
    rfl
  · rw [if_pos h, if_pos h.symm]; rfl
  · rw [if_neg (Ne.symm (ne_of_lt h)), if_neg (asymm h), if_neg (ne_of_lt h),
      if_pos h]
    rfl

theorem localeCmp_ne_gt_iff (a b : String) : localeCmp a b ≠ .gt ↔ a ≤ b := by
  rw [localeCmp]
  by_cases h : a = b
  · simp [h]
  · by_cases h2 : a < b
    · simp [h, h2, le_of_lt h2]
    · simp [h, h2, le_iff_lt_or_eq]

theorem cmpAsc_swap {α : Type _} [LinearOrder α] (a b : α) :
    (cmpNumberAsc a b).swap = cmpNumberAsc b a := by
  rw [cmpNumberAsc, cmpNumberAsc]
  rcases lt_trichotomy a b with h | h | h
  · rw [if_neg (ne_of_lt h), if_pos h, if_neg (Ne.symm (ne_of_lt h)),
      if_neg (asymm h)]
    rfl
  · rw [if_pos h, if_pos h.symm]; rfl
  · rw [if_neg (Ne.symm (ne_of_lt h)), if_neg (asymm h), if_neg (ne_of_lt h),
      if_pos h]
    rfl

theorem cmpDesc_swap {α : Type _} [LinearOrder α] (a b : α) :
    (cmpNumberDesc a b).swap = cmpNumberDesc b a := by
  rw [cmpNumberDesc, cmpNumberDesc]
  rcases lt_trichotomy a b with h | h | h
  · rw [if_neg (ne_of_lt h), if_neg (asymm h), if_neg (Ne.symm (ne_of_lt h)),
      if_pos h]
    rfl
  · rw [if_pos h, if_pos h.symm]; rfl
  · rw [if_neg (Ne.symm (ne_of_lt h)), if_pos h, if_neg (ne_of_lt h),
      if_neg (asymm h)]
    rfl

theorem cmpAsc_ne_gt_iff {α : Type _} [LinearOrder α] (a b : α) :
    cmpNumberAsc a b ≠ .gt ↔ a ≤ b := by
  rw [cmpNumberAsc]
  by_cases h : a = b
  · simp [h]
  · by_cases h2 : a < b
    · simp [h, h2, le_of_lt h2]
    · simp [h, h2, le_iff_lt_or_eq]

theorem cmpDesc_ne_gt_iff {α : Type _} [LinearOrder α] (a b : α) :
    cmpNumberDesc a b ≠ .gt ↔ b ≤ a := by
  rw [cmpNumberDesc]
  by_cases h : a = b
  · simp [h]
  · by_cases h2 : a > b
    · simp [h, h2, le_of_lt h2]
    · have : ¬ b = a := fun hba => h hba.symm
      simp [h, h2, le_iff_lt_or_eq, this]

/-- A comparator that behaves like comparison under a key: antisymmetric
under `swap`, substitutive on `eq`, and transitive on "not greater". -/
def LawCmp (c : Deal → Deal → Ordering) : Prop :=
  (∀ a b, (c a b).swap = c b a) ∧
  (∀ a b, c a b = .eq → ∀ x, c a x = c b x ∧ c x a = c x b) ∧
  (∀ a b d, c a b ≠ .gt → c b d ≠ .gt → c a d ≠ .gt)

theorem lawCmp_desc {α : Type _} [LinearOrder α] (f : Deal → α) :
    LawCmp (fun a b => cmpNumberDesc (f a) (f b)) := by
  refine ⟨fun a b => cmpDesc_swap _ _, fun a b hab x => ?_, fun a b d hab hbd => ?_⟩
  · dsimp only at hab ⊢
    have h := (cmpDesc_eq_eq_iff (f a) (f b)).mp hab
    rw [h]
    exact ⟨rfl, rfl⟩
  · dsimp only at hab hbd ⊢
    rw [cmpDesc_ne_gt_iff] at hab hbd ⊢
    exact le_trans hbd hab

theorem lawCmp_asc {α : Type _} [LinearOrder α] (f : Deal → α) :
    LawCmp (fun a b => cmpNumberAsc (f a) (f b)) := by
  refine ⟨fun a b => cmpAsc_swap _ _, fun a b hab x => ?_, fun a b d hab hbd => ?_⟩
  · dsimp only at hab ⊢
    have h := (cmpAsc_eq_eq_iff (f a) (f b)).mp hab
    rw [h]
    exact ⟨rfl, rfl⟩
  · dsimp only at hab hbd ⊢
    rw [cmpAsc_ne_gt_iff] at hab hbd ⊢
    exact le_trans hab hbd

theorem lawCmp_locale (f : Deal → String) :
    LawCmp (fun a b => localeCmp (f a) (f b)) := by
  refine ⟨fun a b => localeCmp_swap _ _, fun a b hab x => ?_, fun a b d hab hbd => ?_⟩
  · dsimp only at hab ⊢
    have h := (localeCmp_eq_eq_iff (f a) (f b)).mp hab
    rw [h]
    exact ⟨rfl, rfl⟩
  · dsimp only at hab hbd ⊢
    rw [localeCmp_ne_gt_iff] at hab hbd ⊢
    exact le_trans hab hbd

theorem ordering_then_swap (o₁ o₂ : Ordering) :
    (o₁.then o₂).swap = o₁.swap.then o₂.swap := by
  cases o₁ <;> rfl

theorem ordering_then_eq_eq {o₁ o₂ : Ordering} :
    o₁.then o₂ = .eq ↔ o₁ = .eq ∧ o₂ = .eq := by
  cases o₁ <;> simp [Ordering.then]

theorem ordering_then_ne_gt {o₁ o₂ : Ordering} :
    o₁.then o₂ ≠ .gt ↔ o₁ = .lt ∨ (o₁ = .eq ∧ o₂ ≠ .gt) := by
  cases o₁ <;> simp [Ordering.then]

theorem lawCmp_then {c₁ c₂ : Deal → Deal → Ordering}
    (h₁ : LawCmp c₁) (h₂ : LawCmp c₂) :
    LawCmp (fun a b => (c₁ a b).then (c₂ a b)) := by
  refine ⟨fun a b => ?_, fun a b hab x => ?_, fun a b d hab hbd => ?_⟩
  · rw [ordering_then_swap, h₁.1, h₂.1]
  · obtain ⟨e₁, e₂⟩ := ordering_then_eq_eq.mp hab
    constructor
    · dsimp only
      rw [(h₁.2.1 a b e₁ x).1, (h₂.2.1 a b e₂ x).1]
    · dsimp only
      rw [(h₁.2.1 a b e₁ x).2, (h₂.2.1 a b e₂ x).2]
  · rcases ordering_then_ne_gt.mp hab with h1 | ⟨h1, h1'⟩ <;>
      rcases ordering_then_ne_gt.mp hbd with h2 | ⟨h2, h2'⟩
    · refine ordering_then_ne_gt.mpr (Or.inl ?_)
      have hne : c₁ a d ≠ .gt :=
        h₁.2.2 a b d (by rw [h1]; exact nofun) (by rw [h2]; exact nofun)
      cases hcad : c₁ a d with
      | lt => rfl
      | eq =>
        exfalso
        have hdb : c₁ d b = c₁ a b := ((h₁.2.1 a d hcad b).1).symm
        have hswap := h₁.1 d b
        rw [hdb, h1] at hswap
        rw [h2] at hswap
        exact absurd hswap.symm (by decide)
      | gt => exact absurd hcad hne
    · refine ordering_then_ne_gt.mpr (Or.inl ?_)
      have := (h₁.2.1 b d h2 a).2
      rw [← this, h1]
    · refine ordering_then_ne_gt.mpr (Or.inl ?_)
      have := (h₁.2.1 a b h1 d).1
      rw [this, h2]
    · refine ordering_then_ne_gt.mpr (Or.inr ⟨?_, ?_⟩)
      · rw [(h₁.2.1 a b h1 d).1, h2]
      · exact h₂.2.2 a b d h1' h2'

theorem lawCmp_dealCmp (l10 : ℚ → ℚ) (mode : SortMode) :
    LawCmp (dealCmp l10 mode) := by
  cases mode with
  | quality =>
    exact lawCmp_then (lawCmp_desc qualityRank)
      (lawCmp_then
        (lawCmp_desc fun d => (computeDealScore l10 d.listPrice d.currentPrice).score)
        (lawCmp_then (lawCmp_desc fun d => d.dealRating.getD 0)
          (lawCmp_then (lawCmp_asc Deal.currentPrice) (lawCmp_locale Deal.title))))
  | discount =>
    exact lawCmp_then
      (lawCmp_desc fun d => (computeDealScore l10 d.listPrice d.currentPrice).score)
      (lawCmp_then
        (lawCmp_desc fun d =>
          (computeDealScore l10 d.listPrice d.currentPrice).discountPercent)
        (lawCmp_then
          (lawCmp_desc fun d =>
            (computeDealScore l10 d.listPrice d.currentPrice).savings)
          (lawCmp_then (lawCmp_asc Deal.currentPrice) (lawCmp_locale Deal.title))))
  | priceLow =>
    exact lawCmp_then (lawCmp_asc Deal.currentPrice)
      (lawCmp_then
        (lawCmp_desc fun d => (computeDealScore l10 d.listPrice d.currentPrice).score)
        (lawCmp_then (lawCmp_desc qualityRank) (lawCmp_locale Deal.title)))
  | priceHigh =>
    exact lawCmp_then (lawCmp_desc Deal.currentPrice)
      (lawCmp_then
        (lawCmp_desc fun d => (computeDealScore l10 d.listPrice d.currentPrice).score)
        (lawCmp_then (lawCmp_desc qualityRank) (lawCmp_locale Deal.title)))

theorem dealCmp_eq_imp_title (l10 : ℚ → ℚ) (mode : SortMode) (a b : Deal)
    (h : dealCmp l10 mode a b = .eq) : a.title = b.title := by
  cases mode with
  | quality =>
    simp only [dealCmp] at h
    obtain ⟨-, h⟩ := ordering_then_eq_eq.mp h
    obtain ⟨-, h⟩ := ordering_then_eq_eq.mp h
    obtain ⟨-, h⟩ := ordering_then_eq_eq.mp h
    obtain ⟨-, h⟩ := ordering_then_eq_eq.mp h
    exact (localeCmp_eq_eq_iff _ _).mp h
  | discount =>
    simp only [dealCmp] at h
    obtain ⟨-, h⟩ := ordering_then_eq_eq.mp h
    obtain ⟨-, h⟩ := ordering_then_eq_eq.mp h
    obtain ⟨-, h⟩ := ordering_then_eq_eq.mp h
    obtain ⟨-, h⟩ := ordering_then_eq_eq.mp h
    exact (localeCmp_eq_eq_iff _ _).mp h
  | priceLow =>
    simp only [dealCmp] at h
    obtain ⟨-, h⟩ := ordering_then_eq_eq.mp h
    obtain ⟨-, h⟩ := ordering_then_eq_eq.mp h
    obtain ⟨-, h⟩ := ordering_then_eq_eq.mp h
    exact (localeCmp_eq_eq_iff _ _).mp h
  | priceHigh =>
    simp only [dealCmp] at h
    obtain ⟨-, h⟩ := ordering_then_eq_eq.mp h
    obtain ⟨-, h⟩ := ordering_then_eq_eq.mp h
    obtain ⟨-, h⟩ := ordering_then_eq_eq.mp h
    exact (localeCmp_eq_eq_iff _ _).mp h

theorem dealLe_trans (l10 : ℚ → ℚ) (mode : SortMode) :
    ∀ a b c : Deal, dealLe l10 mode a b → dealLe l10 mode b c →
      dealLe l10 mode a c := by
  intro a b c hab hbc
  exact decide_eq_true ((lawCmp_dealCmp l10 mode).2.2 a b c
    (of_decide_eq_true hab) (of_decide_eq_true hbc))

theorem dealLe_total (l10 : ℚ → ℚ) (mode : SortMode) :
    ∀ a b : Deal, dealLe l10 mode a b || dealLe l10 mode b a := by
  intro a b
  by_cases h : dealCmp l10 mode a b = .gt
  · have hba : dealCmp l10 mode b a = .lt := by
      have hs := (lawCmp_dealCmp l10 mode).1 a b
      rw [h] at hs
      exact hs.symm
    refine Bool.or_eq_true _ _ |>.mpr (Or.inr ?_)
    rw [dealLe, hba]
    decide
  · refine Bool.or_eq_true _ _ |>.mpr (Or.inl ?_)
    exact decide_eq_true h

/-- Claim C6: for every sort mode the comparator is a deterministic total
order whose final tie-break is the (case-sensitive lexical) title
comparison: it is antisymmetric under `swap`, transitive on "not
greater", compares two deals equal only when their titles are equal, and
sorting twice yields the same output as sorting once. -/
theorem sortedDeals_total_order (l10 : ℚ → ℚ) (mode : SortMode) :
    (∀ a b : Deal, dealCmp l10 mode a b = .eq → a.title = b.title) ∧
    (∀ a b : Deal, (dealCmp l10 mode a b).swap = dealCmp l10 mode b a) ∧
    (∀ a b c : Deal, dealCmp l10 mode a b ≠ .gt → dealCmp l10 mode b c ≠ .gt →
      dealCmp l10 mode a c ≠ .gt) ∧
    (∀ l : List Deal,
      sortedDeals l10 mode (sortedDeals l10 mode l) = sortedDeals l10 mode l) := by
  refine ⟨dealCmp_eq_imp_title l10 mode, (lawCmp_dealCmp l10 mode).1,
    (lawCmp_dealCmp l10 mode).2.2, ?_⟩
  intro l
  exact List.mergeSort_of_sorted
    (List.sorted_mergeSort (dealLe_trans l10 mode) (dealLe_total l10 mode) l)

/-! ## Concrete inputs for the hypotheses of the theorems above -/

/-- A concrete Steam-side deal record sharing its game id with
`wDealEpic`. -/
def wDealSteam : Deal :=
  { title := "Game", image := "", listPrice := 10, currentPrice := 5,
    platforms := ["steam"], gameId := some "g1",
    steamRatingPercent := some 80 }

/-- A concrete Epic-side deal record sharing its game id with
`wDealSteam`. -/
def wDealEpic : Deal :=
  { title := "Game (Epic)", image := "", listPrice := 10, currentPrice := 3,
    platforms := ["epic"], gameId := some "g1", dealRating := some 2 }

/-- Witness for the merge characterization at a concrete two-element
input with non-negative quality signals. -/
theorem mergeDealsByGame_characterization_witness :
    (mergeDealsByGame [wDealSteam, wDealEpic]).map gameKey
      = dedupFirst ([wDealSteam, wDealEpic].map gameKey) :=
  (mergeDealsByGame_characterization [wDealSteam, wDealEpic] (by decide)).1

/-- A concrete raw Epic deal (store id `"25"`) with both a `steamAppID`
and a `dealID`. -/
def csEpicDeal : CheapSharkDeal :=
  { internalName := "GAME", title := "Game", metacriticLink := none,
    dealID := "D2", storeID := "25", gameID := "G2",
    salePrice := "1.00", normalPrice := "2.00", isOnSale := "1",
    savings := "50", steamRatingText := none, steamRatingPercent := "90",
    steamRatingCount := "100", steamAppID := some "10",
    releaseDate := 0, lastChange := 0, dealRating := "9", thumb := "t" }

/-- Witness for the claim-links characterization at a concrete non-Steam
store: both links coexist. -/
theorem mapDeal_claimLinks_characterization_witness :
    (mapDeal (fun _ => 0) csEpicDeal none).claimLinks = some
      [("steam",
        "https://store.steampowered.com/app/" ++ csEpicDeal.steamAppID.getD "" ++ "/"),
       (normalizeStoreKey csEpicDeal.storeID none,
        "https://www.cheapshark.com/redirect?dealID=" ++ csEpicDeal.dealID)] :=
  (mapDeal_claimLinks_characterization (fun _ => 0) csEpicDeal none
    (by decide) (by decide)).1 (by decide)
